import Mathlib

/-!
Verification development for the lock-free hash table (lfht).

The development shallowly embeds, in Lean, the parts of the source that the
specification talks about:

* the machine-word sentinel encodings of `atomic_traits.h`
  (`TValueTraits<size_t>` and `TValueTraits<const T*>`), 64-bit words being
  modelled as natural numbers with explicit masks and `% 2^64` bounds;
* the per-slot protocol of the newer revision (`table.h`): `Copy`,
  `GetEntry`, `PutEntry`, `FetchEntry`, `LookUp` and `Put`, in a sequential
  semantics in which a CAS that compares against a value read in the same
  invocation succeeds;
* a sequential model of the older revision (`lfht.h`): its tables with
  per-entry `NORMAL`/`COPYING`/`COPIED` states, the `LFHashTable` facade,
  `NextTwoPower`, and a pointer-graph model of `TryToDelete`.

Floating-point quantities of the source (`m_MaxProbeCnt`, copy-chunk sizes)
are carried as explicit inputs of the corresponding constructors, since they
only tune heuristics.
-/

namespace LFHT

/-! ## Bit-arithmetic helpers -/

/-- A multiple of `2 ^ n` has all bits below `n` clear. -/
theorem testBit_eq_false_of_mod {x n i : ℕ} (hx : x % 2 ^ n = 0) (hi : i < n) :
    x.testBit i = false := by
  obtain ⟨k, hk⟩ : 2 ^ n ∣ x := Nat.dvd_of_mod_eq_zero hx
  have hsplit : 2 ^ n = 2 ^ i * 2 ^ (n - i) := by
    rw [← pow_add]
    congr 1
    omega
  have hpos : 0 < 2 ^ i := Nat.pos_pow_of_pos _ (by norm_num)
  have hdiv : x / 2 ^ i = 2 ^ (n - i) * k := by
    rw [hk, hsplit, Nat.mul_assoc, Nat.mul_div_cancel_left _ hpos]
  have hsplit2 : 2 ^ (n - i) = 2 * 2 ^ (n - i - 1) := by
    rw [← pow_succ']
    congr 1
    omega
  have heven : x / 2 ^ i % 2 = 0 := by
    rw [hdiv, hsplit2, Nat.mul_assoc]
    omega
  rw [Nat.testBit_to_div_mod]
  simp [heven]

/-- If the low `n` bits of `a` are clear and `b` fits in `n` bits, the bits
of `a + b` are the union of the bits of `a` and of `b`. -/
theorem testBit_add_of_disjoint {a b n : ℕ} (ha : a % 2 ^ n = 0) (hb : b < 2 ^ n)
    (i : ℕ) : (a + b).testBit i = (a.testBit i || b.testBit i) := by
  obtain ⟨k, hk⟩ : 2 ^ n ∣ a := Nat.dvd_of_mod_eq_zero ha
  rcases lt_or_le i n with hi | hi
  · have hsplit : 2 ^ n = 2 ^ i * 2 ^ (n - i) := by
      rw [← pow_add]
      congr 1
      omega
    have hpos : 0 < 2 ^ i := Nat.pos_pow_of_pos _ (by norm_num)
    have hdiva : a / 2 ^ i = 2 ^ (n - i) * k := by
      rw [hk, hsplit, Nat.mul_assoc, Nat.mul_div_cancel_left _ hpos]
    have hdivab : (a + b) / 2 ^ i = 2 ^ (n - i) * k + b / 2 ^ i := by
      rw [hk, hsplit, Nat.mul_assoc, Nat.mul_add_div hpos]
    have hsplit2 : 2 ^ (n - i) = 2 * 2 ^ (n - i - 1) := by
      rw [← pow_succ']
      congr 1
      omega
    have heven : 2 ^ (n - i) * k % 2 = 0 := by
      rw [hsplit2, Nat.mul_assoc]
      omega
    have hta : a.testBit i = false := testBit_eq_false_of_mod ha hi
    rw [hta, Bool.false_or, Nat.testBit_to_div_mod, Nat.testBit_to_div_mod, hdivab]
    have hmod : (2 ^ (n - i) * k + b / 2 ^ i) % 2 = b / 2 ^ i % 2 := by omega
    rw [hmod]
  · have hb2 : b < 2 ^ i := lt_of_lt_of_le hb (Nat.pow_le_pow_right (by norm_num) hi)
    have htb : b.testBit i = false := Nat.testBit_lt_two_pow hb2
    have hsplit : 2 ^ i = 2 ^ n * 2 ^ (i - n) := by
      rw [← pow_add]
      congr 1
      omega
    have hnpos : 0 < 2 ^ n := Nat.pos_pow_of_pos _ (by norm_num)
    have hdivab : (a + b) / 2 ^ i = k / 2 ^ (i - n) := by
      rw [hk, hsplit, ← Nat.div_div_eq_div_mul, Nat.mul_add_div hnpos,
        Nat.div_eq_of_lt hb, Nat.add_zero]
    have hdiva : a / 2 ^ i = k / 2 ^ (i - n) := by
      rw [hk, hsplit, ← Nat.div_div_eq_div_mul, Nat.mul_div_cancel_left _ hnpos]
    rw [htb, Bool.or_false, Nat.testBit_to_div_mod, Nat.testBit_to_div_mod, hdivab, hdiva]

/-- Bitwise or of numbers with disjoint bit ranges is addition. -/
theorem lor_eq_add_of_disjoint {a b n : ℕ} (ha : a % 2 ^ n = 0) (hb : b < 2 ^ n) :
    a ||| b = a + b := by
  refine Nat.eq_of_testBit_eq fun i => ?_
  rw [Nat.testBit_or, testBit_add_of_disjoint ha hb]

/-- A number whose bits below `n` are all clear is divisible by `2 ^ n`. -/
theorem mod_two_pow_eq_zero_of_testBit {x n : ℕ}
    (h : ∀ i < n, x.testBit i = false) : x % 2 ^ n = 0 := by
  have hx : x % 2 ^ n = (0 : ℕ) := by
    refine Nat.eq_of_testBit_eq fun i => ?_
    rw [Nat.testBit_mod_two_pow, Nat.zero_testBit]
    rcases lt_or_le i n with hi | hi
    · simp [h i hi]
    · simp
      omega
  exact hx

/-- Distributing an or over an addition whose summands occupy bit ranges
disjoint from each other (the mask and the low part may overlap the high
part freely above `n`). -/
theorem add_lor_of_disjoint {a b m n : ℕ} (ha : a % 2 ^ n = 0) (hm : m % 2 ^ n = 0)
    (hb : b < 2 ^ n) : (a + b) ||| m = (a ||| m) + b := by
  have ham : (a ||| m) % 2 ^ n = 0 := by
    refine mod_two_pow_eq_zero_of_testBit fun i hi => ?_
    rw [Nat.testBit_or, testBit_eq_false_of_mod ha hi, testBit_eq_false_of_mod hm hi]
    rfl
  refine Nat.eq_of_testBit_eq fun i => ?_
  rw [Nat.testBit_or, testBit_add_of_disjoint ha hb, testBit_add_of_disjoint ham hb,
    Nat.testBit_or]
  cases a.testBit i <;> cases b.testBit i <;> cases m.testBit i <;> rfl

/-! ## The integer value encoding: TValueTraits of size_t (atomic_traits.h:315-339)

Machine words are modelled as natural numbers; a well-formed word is `< 2^64`.
-/

namespace SizeT

/-- SIGNIFICANT_BITS of TValueTraits of size_t (atomic_traits.h:317). -/
def SIGNIFICANT_BITS : ℕ := 0x7FFFFFFFFFFFFFFF

/-- COPYING_FLAG, the complement of SIGNIFICANT_BITS in a 64-bit word
(atomic_traits.h:318). -/
def COPYING_FLAG : ℕ := 0x8000000000000000

/-- The NONE value sentinel: TReserved of size_t at 0 (atomic_traits.h:90-94,
TValueTraitsBase None). -/
def NoneV : ℕ := 0

/-- The BABY value sentinel: TReserved of size_t at 1 (atomic_traits.h:96-100). -/
def BabyV : ℕ := 0x7FFFFFFFFFFFFFFD

/-- The COPIED value sentinel: TReserved of size_t at 2 (atomic_traits.h:102-106). -/
def CopiedV : ℕ := 0x7FFFFFFFFFFFFFFE

/-- The DELETED value sentinel: TReserved of size_t at 3 (atomic_traits.h:108-112). -/
def DeletedV : ℕ := 0x7FFFFFFFFFFFFFFF

/-- PureValue (atomic_traits.h:320-322): mask off the copying bit. -/
def PureValue (x : ℕ) : ℕ := x &&& SIGNIFICANT_BITS

/-- IsCopying (atomic_traits.h:324-326): test the copying bit. -/
def IsCopying (x : ℕ) : Bool := x &&& COPYING_FLAG != 0

/-- SetCopying (atomic_traits.h:328-330): AtomicOr with the copying flag. -/
def SetCopying (x : ℕ) : ℕ := x ||| COPYING_FLAG

/-- IsReserved (atomic_traits.h:332-334): equal to NONE, or at least BABY. -/
def IsReserved (x : ℕ) : Bool := x == NoneV || decide (BabyV ≤ x)

theorem PureValue_eq_mod (x : ℕ) : PureValue x = x % 2 ^ 63 := by
  have h : SIGNIFICANT_BITS = 2 ^ 63 - 1 := by norm_num [SIGNIFICANT_BITS]
  rw [PureValue, h, Nat.and_pow_two_sub_one_eq_mod]

theorem IsCopying_eq_testBit (x : ℕ) : IsCopying x = x.testBit 63 := by
  have h : COPYING_FLAG = 2 ^ 63 := by norm_num [COPYING_FLAG]
  rw [IsCopying, h, Nat.and_two_pow]
  cases hx : x.testBit 63 <;> simp [hx]

theorem IsCopying_SetCopying (x : ℕ) : IsCopying (SetCopying x) = true := by
  have h : COPYING_FLAG = 2 ^ 63 := by norm_num [COPYING_FLAG]
  rw [IsCopying_eq_testBit, SetCopying, h, Nat.testBit_or, Nat.testBit_two_pow]
  simp

theorem PureValue_SetCopying (x : ℕ) : PureValue (SetCopying x) = PureValue x := by
  have h : COPYING_FLAG = 2 ^ 63 := by norm_num [COPYING_FLAG]
  rw [PureValue_eq_mod, PureValue_eq_mod, SetCopying, h]
  refine Nat.eq_of_testBit_eq fun i => ?_
  rw [Nat.testBit_mod_two_pow, Nat.testBit_mod_two_pow, Nat.testBit_or,
    Nat.testBit_two_pow]
  rcases Nat.lt_or_ge i 63 with hi | hi
  · have : ¬(63 = i) := by omega
    simp [hi, this]
  · have : ¬(i < 63) := by omega
    simp [this]

theorem IsCopying_PureValue (x : ℕ) : IsCopying (PureValue x) = false := by
  rw [IsCopying_eq_testBit, PureValue_eq_mod, Nat.testBit_mod_two_pow]
  simp

theorem lt_of_not_copying {x : ℕ} (hx : x < 2 ^ 64) (hc : IsCopying x = false) :
    x < 2 ^ 63 := by
  rw [IsCopying_eq_testBit, Nat.testBit_to_div_mod] at hc
  simp at hc
  omega

theorem PureValue_of_not_copying {x : ℕ} (hx : x < 2 ^ 64) (hc : IsCopying x = false) :
    PureValue x = x := by
  rw [PureValue_eq_mod]
  exact Nat.mod_eq_of_lt (lt_of_not_copying hx hc)

end SizeT

/-! ## The pointer value encoding: TValueTraits of const T* (atomic_traits.h:267-313)

The encoding relies on the canonical form of 64-bit addresses: bit 62
different from bit 63 marks the COPYING state.  Pointers are modelled as the
natural number value of the word.
-/

namespace PtrV

/-- SIGNIFICANT_BITS of the pointer traits (atomic_traits.h:272). -/
def SIGNIFICANT_BITS : ℕ := 0x0000FFFFFFFFFFFF

/-- Bitwise complement of SIGNIFICANT_BITS within a 64-bit word, the mask
the source writes as the complement of SIGNIFICANT_BITS (atomic_traits.h:281). -/
def NOT_SIGNIFICANT : ℕ := 0xFFFF000000000000

/-- Bit 62 of the word, written in the source as shift right 62 then mask 1
(atomic_traits.h:279). -/
def b62 (x : ℕ) : ℕ := (x >>> 62) &&& 1

/-- Bit 63 of the word (atomic_traits.h:290). -/
def b63 (x : ℕ) : ℕ := (x >>> 63) &&& 1

/-- PureValue (atomic_traits.h:277-284): sign-extend bit 62 over the top
sixteen bits. -/
def PureValue (x : ℕ) : ℕ :=
  if b62 x = 1 then x ||| NOT_SIGNIFICANT else x &&& SIGNIFICANT_BITS

/-- IsCopying (atomic_traits.h:286-294): bit 63 different from bit 62. -/
def IsCopying (x : ℕ) : Bool := b63 x != b62 x

/-- SetCopying (atomic_traits.h:296-304): flip bit 63 away from bit 62. -/
def SetCopying (x : ℕ) : ℕ :=
  if b62 x = 0 then x ||| (1 <<< 63) else x &&& 0x7FFFFFFFFFFFFFFF

/-- IsReserved (atomic_traits.h:306-308): the four reserved codepoints are
the first four addresses. -/
def IsReserved (x : ℕ) : Bool := decide (x < 4)

/-- Canonical 64-bit address: bits 63..47 all equal (user-space low half or
kernel-space high half).  The source's comment points at the AMD canonical-
address requirement (atomic_traits.h:267-269). -/
def Canonical (x : ℕ) : Prop := x < 2 ^ 47 ∨ (2 ^ 64 - 2 ^ 47 ≤ x ∧ x < 2 ^ 64)

theorem b62_eq (x : ℕ) : b62 x = x / 2 ^ 62 % 2 := by
  have h1 : (1 : ℕ) = 2 ^ 1 - 1 := by norm_num
  rw [b62, Nat.shiftRight_eq_div_pow, h1, Nat.and_pow_two_sub_one_eq_mod]

theorem b63_eq (x : ℕ) : b63 x = x / 2 ^ 63 % 2 := by
  have h1 : (1 : ℕ) = 2 ^ 1 - 1 := by norm_num
  rw [b63, Nat.shiftRight_eq_div_pow, h1, Nat.and_pow_two_sub_one_eq_mod]

end PtrV

/-! ## The slot protocol of the newer revision (table.h), size_t instantiation

Keys and values are machine words (size_t).  The model is sequential: a CAS
that compares against a value read in the same invocation succeeds, so the
lost-race RETRY paths of the source are dead.  Guard-manager side effects
(reference counts, alive counters) are not represented in the slot results;
the approximate TotalKeyCnt consulted by LookUp is an explicit input.
-/

namespace Tbl

/-- The NONE key sentinel: TKeyTraits of size_t None = TReserved 0
(atomic_traits.h:189-191, 90-94). -/
def keyNone : ℕ := 0

/-- TKeysAreEqual for size_t (atomic_traits.h:344-356): a NONE on either
side compares bitwise; otherwise the user equality, which for size_t is
bitwise equality as well. -/
def keysAreEqual (l r : ℕ) : Bool :=
  if l == keyNone || r == keyNone then l == r else l == r

/-- KeyIsNone (table.h:193-196). -/
def keyIsNone (k : ℕ) : Bool := keysAreEqual k keyNone

/-- TValuesAreEqual for size_t (atomic_traits.h:358-375): different copying
bits compare unequal; if either pure value is reserved the comparison is
bitwise; otherwise the user equality, bitwise for size_t. -/
def valuesAreEqual (l r : ℕ) : Bool :=
  if SizeT.IsCopying l != SizeT.IsCopying r then false
  else
    if SizeT.IsReserved (SizeT.PureValue l) || SizeT.IsReserved (SizeT.PureValue r) then
      l == r
    else l == r

/-- The conditions of the conditional Put.  The PutCondition enum itself
lives in the facade header of the newer revision, which is not among the
source files; its members are those used by table.h and listed by the
specification (ALWAYS, IF_ABSENT, IF_EXISTS, IF_MATCHES, COPYING). -/
inductive When
  | ALWAYS
  | IF_ABSENT
  | IF_EXISTS
  | IF_MATCHES
  | COPYING
deriving DecidableEq, Repr

/-- A put condition: the when discriminant and the compare value used by
IF_MATCHES. -/
structure PutCondition where
  m_When : When
  m_Value : ℕ
deriving DecidableEq, Repr

/-- EResult (table.h:56-63). -/
inductive EResult
  | FULL_TABLE
  | SUCCEEDED
  | FAILED
  | RETRY
  | CONTINUE
deriving DecidableEq, Repr

/-- One Entry (table.h:13-27): an atomic key word and an atomic value word. -/
structure Entry where
  m_Key : ℕ
  m_Value : ℕ
deriving DecidableEq, Repr

/-- The Entry constructor (table.h:22-26): key NONE, value BABY. -/
def Entry.init : Entry := ⟨keyNone, SizeT.BabyV⟩

/-- The slot-value effect of Copy (table.h:503-538) together with a flag
telling whether a write was propagated to a successor table.  The function
marks the slot COPYING, then dispatches on the pure value: terminal values
are left (marked); BABY becomes COPIED; NONE becomes DELETED; a live value
is put into the successor chain, after which the slot becomes COPIED (the
loop of table.h:527-537 exits only once the slot reads COPIED, and in the
sequential semantics the put into a freshly created successor succeeds). -/
def copyValue (w : ℕ) : ℕ × Bool :=
  let w1 := SizeT.SetCopying w
  let p := SizeT.PureValue w1
  if p = SizeT.DeletedV ∨ p = SizeT.CopiedV then (w1, false)
  else if p = SizeT.BabyV then (SizeT.CopiedV, false)
  else if p = SizeT.NoneV then (SizeT.DeletedV, false)
  else (SizeT.CopiedV, true)

/-- GetEntry (table.h:444-454): assist an in-progress copy, then read the
pure value; the boolean is false when the information may live in successor
tables (value COPIED or DELETED).  Returns the new slot word, the value
read, and that boolean. -/
def getEntry (w : ℕ) : ℕ × ℕ × Bool :=
  let w1 := if SizeT.IsCopying w then (copyValue w).1 else w
  let v := SizeT.PureValue w1
  (w1, v, !(v == SizeT.CopiedV || v == SizeT.DeletedV))

/-- PutEntry (table.h:540-614), sequential semantics: the CAS compares
against the value read in this same invocation and therefore succeeds, so
the RETRY outcome of a lost CAS race does not arise.  Returns the result
and the new slot word. -/
def putEntry (w value : ℕ) (cond : PutCondition) : EResult × ℕ :=
  if SizeT.IsCopying w then (.FULL_TABLE, (copyValue w).1)
  else
    let oldValue := SizeT.PureValue w
    if oldValue = SizeT.DeletedV ∨ oldValue = SizeT.CopiedV then (.FULL_TABLE, w)
    else
      let condFails :=
        match cond.m_When with
        | .COPYING => !(oldValue == SizeT.BabyV)
        | .IF_ABSENT => !(oldValue == SizeT.NoneV) && !(oldValue == SizeT.BabyV)
        | .IF_MATCHES => !(valuesAreEqual oldValue cond.m_Value)
        | .IF_EXISTS => oldValue == SizeT.BabyV || oldValue == SizeT.NoneV
        | .ALWAYS => false
      if condFails then (.FAILED, w) else (.SUCCEEDED, value)

/-- The declarative reading of a put condition against the pure old value
(the switch of table.h:571-595 seen as a predicate): used to state the
result classification of PutEntry. -/
def condHolds (oldValue : ℕ) (cond : PutCondition) : Bool :=
  match cond.m_When with
  | .COPYING => oldValue == SizeT.BabyV
  | .IF_ABSENT => oldValue == SizeT.NoneV || oldValue == SizeT.BabyV
  | .IF_MATCHES => valuesAreEqual oldValue cond.m_Value
  | .IF_EXISTS => !(oldValue == SizeT.BabyV) && !(oldValue == SizeT.NoneV)
  | .ALWAYS => true

/-- One atomic write to a slot's value word, as performed by the protocol
operations of table.h.  Each constructor is one store of the source with
the guard that holds at the instant the store takes effect. -/
inductive SlotStep : ℕ → ℕ → Prop
  | setCopying (w : ℕ) :
      SlotStep w (SizeT.SetCopying w)
  | cas (w v : ℕ) (hw : SizeT.IsCopying w = false)
      (hterm : SizeT.PureValue w ≠ SizeT.CopiedV ∧ SizeT.PureValue w ≠ SizeT.DeletedV)
      (hv : SizeT.IsCopying v = false)
      (hgood : v ≠ SizeT.BabyV ∧ v ≠ SizeT.CopiedV ∧ v ≠ SizeT.DeletedV) :
      SlotStep w v
  | storeCopiedBaby (w : ℕ) (h : SizeT.PureValue w = SizeT.BabyV) :
      SlotStep w SizeT.CopiedV
  | storeDeletedNone (w : ℕ) (h : SizeT.PureValue w = SizeT.NoneV) :
      SlotStep w SizeT.DeletedV
  | storeCopiedLive (w : ℕ) (h : SizeT.IsReserved (SizeT.PureValue w) = false) :
      SlotStep w SizeT.CopiedV
  | storeCopiedAgain (w : ℕ) (h : SizeT.PureValue w = SizeT.CopiedV) :
      SlotStep w SizeT.CopiedV
  | storeDeletedAgain (w : ℕ) (h : SizeT.PureValue w = SizeT.DeletedV) :
      SlotStep w SizeT.DeletedV

/-- Finitely many slot-protocol writes. -/
def SlotReach : ℕ → ℕ → Prop := Relation.ReflTransGen SlotStep

/-- The fixed-capacity probing table (table.h:33-160, fields 134-151).
m_SizeMinusOne is m_Size - 1; the upper key-count bound is a constructor
input because the source computes it with floating-point arithmetic from
the density (table.h:79-80). -/
structure TableState where
  m_Size : ℕ
  m_MinProbeCnt : ℕ
  m_IsFullFlag : Bool
  m_UpperKeyCountBound : ℕ
  m_Data : List Entry
deriving DecidableEq, Repr

/-- Overwrite the key word of slot i. -/
def TableState.setKey (t : TableState) (i key : ℕ) : TableState :=
  { t with m_Data := t.m_Data.set i { t.m_Data.getD i Entry.init with m_Key := key } }

/-- Overwrite the value word of slot i. -/
def TableState.setValue (t : TableState) (i w : ℕ) : TableState :=
  { t with m_Data := t.m_Data.set i { t.m_Data.getD i Entry.init with m_Value := w } }

/-- The probe loop of LookUp (table.h:386-409): linear probing with
wrap-around; the second result is the probe counter remaining when the loop
exits (it starts at m_Size and is decremented on each advance). -/
def lookUpGo (data : List Entry) (key : ℕ) : ℕ → ℕ → Option (ℕ × Bool) × ℕ
  | _, 0 => (none, 0)
  | i, n + 1 =>
    let e := data.getD i Entry.init
    if keysAreEqual e.m_Key key then (some (i, true), n + 1)
    else if keyIsNone e.m_Key then (some (i, false), n + 1)
    else lookUpGo data key ((i + 1) % data.length) n

/-- LookUp (table.h:379-440).  The boolean in the result tells whether the
slot's key equals the probe key (foundKey = key) as opposed to NONE.  With
CheckFull, the min-probe CAS loop runs (once, sequentially) and the
fullness flag is set when the whole table was scanned without a hit;
keysCnt is the approximate TotalKeyCnt read from the guard manager. -/
def lookUp (t : TableState) (checkFull : Bool) (key hash keysCnt : ℕ) :
    Option (ℕ × Bool) × TableState :=
  let r := lookUpGo t.m_Data key (hash &&& (t.m_Size - 1)) t.m_Size
  let returnEntry := r.1
  let probeCnt := r.2
  if checkFull then
    let t1 :=
      if !t.m_IsFullFlag && decide (probeCnt < t.m_MinProbeCnt) then
        { t with m_MinProbeCnt := probeCnt,
                 m_IsFullFlag := t.m_IsFullFlag || decide (t.m_UpperKeyCountBound ≤ keysCnt) }
      else t
    let t2 :=
      if returnEntry.isNone && !t1.m_IsFullFlag then { t1 with m_IsFullFlag := true }
      else t1
    (returnEntry, t2)
  else (returnEntry, t)

/-- FetchEntry (table.h:616-652): entry is the slot index found by LookUp
(none when the probe limit was exceeded), thereWasKey tells whether the
slot already holds the key.  The boolean result is keyInstalled.  The key
CAS succeeds sequentially. -/
def fetchEntry (t : TableState) (key : ℕ) (entry : Option ℕ) (thereWasKey : Bool)
    (cond : PutCondition) : EResult × TableState × Bool :=
  match entry with
  | none => (.FULL_TABLE, t, false)
  | some i =>
    if t.m_IsFullFlag then
      (.FULL_TABLE, t.setValue i (copyValue (t.m_Data.getD i Entry.init).m_Value).1, false)
    else if thereWasKey then (.CONTINUE, t, false)
    else
      let entryKey := (t.m_Data.getD i Entry.init).m_Key
      if keyIsNone entryKey then
        if cond.m_When = .IF_EXISTS ∨ cond.m_When = .IF_MATCHES then (.FAILED, t, false)
        else (.CONTINUE, t.setKey i key, true)
      else if !(keysAreEqual entryKey key) then (.RETRY, t, false)
      else (.CONTINUE, t, false)

/-- Put (table.h:654-698), fuel-bounded: the debug build asserts after
10000 retries of either loop; sequentially a retry cannot happen, and the
inner PutEntry loop needs a single pass because the sequential PutEntry
never answers RETRY.  Returns the result, the new table and keyInstalled. -/
def putGo (hash : ℕ → ℕ) (key value : ℕ) (cond : PutCondition) (keysCnt : ℕ) :
    ℕ → TableState → Option (EResult × TableState × Bool)
  | 0, _ => none
  | fuel + 1, t =>
    let lr := lookUp t true key (hash key) keysCnt
    let entry := lr.1
    let t1 := lr.2
    let matched := match entry with | some (_, b) => b | none => false
    let fr := fetchEntry t1 key (entry.map Prod.fst) matched cond
    match fr.1 with
    | .RETRY => putGo hash key value cond keysCnt fuel fr.2.1
    | .CONTINUE =>
      match entry with
      | none => none
      | some (i, _) =>
        let w := (fr.2.1.m_Data.getD i Entry.init).m_Value
        let pr := putEntry w value cond
        some (pr.1, fr.2.1.setValue i pr.2, fr.2.2)
    | r => some (r, fr.2.1, fr.2.2)

/-- Put with the debug retry bound of the source as fuel. -/
def put (t : TableState) (key value : ℕ) (cond : PutCondition) (keysCnt : ℕ)
    (hash : ℕ → ℕ) : Option (EResult × TableState × Bool) :=
  putGo hash key value cond keysCnt 10000 t

end Tbl

/-! ## The older revision (lfht.h): per-entry states and the LFHashTable facade

A sequential model: one thread, so every CAS whose compare value was read in
the same operation succeeds, and the guard manager holds a single guard.
The user hash and equality are explicit function parameters; the sentinels
are fixed to the instantiation TLFHashTable with RK1 = 0, RK2 = 1, RV = 0
used by lf_hash_map.h:40.
-/

namespace Old

/-- NO_KEY = RK1 (lfht.h:40), instantiated to 0. -/
def NO_KEY : ℕ := 0

/-- TOMBSTONE = RK2 (lfht.h:41), instantiated to 1. -/
def TOMBSTONE : ℕ := 1

/-- NO_VALUE = RV (lfht.h:42), instantiated to 0. -/
def NO_VALUE : ℕ := 0

/-- NO_TABLE, the guard sentinel: the largest size_t (guards and lfht.h:226). -/
def NO_TABLE : ℕ := 2 ^ 64 - 1

/-- The per-entry state (lfht.h:34-36). -/
inductive EState
  | NORMAL
  | COPYING
  | COPIED
deriving DecidableEq, Repr

/-- An entry (lfht.h:38-53): key word, value word, state byte. -/
structure LEntry where
  m_key : ℕ
  m_value : ℕ
  m_state : EState
deriving DecidableEq, Repr

/-- The Entry constructor (lfht.h:48-53). -/
def LEntry.init : LEntry := ⟨NO_KEY, NO_VALUE, .NORMAL⟩

/-- EResult (lfht.h:117-121). -/
inductive EResult
  | FULL_TABLE
  | SUCCEEDED
  | FAILED
deriving DecidableEq, Repr

/-- EWhenToPut (lfht.h:349-354). -/
inductive When
  | ALWAYS
  | IF_ABSENT
  | IF_EXISTS
  | IF_MATCHES
deriving DecidableEq, Repr

/-- PutCondition (lfht.h:348-378); the constructor defaults m_value to
NO_VALUE (lfht.h:359). -/
structure PutCondition where
  m_when : When
  m_value : ℕ
deriving DecidableEq, Repr

/-- A table (lfht.h:83-166).  m_maxProbeCnt is computed by the source as
(size_t)(1.5 * log(size)) in floating point (lfht.h:136) and is therefore a
constructor input here. -/
structure LTable where
  m_size : ℕ
  m_maxProbeCnt : ℕ
  m_isFullFlag : Bool
  m_copiedCnt : ℕ
  m_copyTaskSize : ℕ
  m_data : List LEntry
deriving DecidableEq, Repr

/-- The Table constructor (lfht.h:124-137): size must be a power of two;
all entries start as Entry(). -/
def mkLTable (size maxProbeCnt : ℕ) : LTable :=
  ⟨size, maxProbeCnt, false, 0, 0, List.replicate size LEntry.init⟩

/-- The probe loop of LookUp (lfht.h:426-448): skip TOMBSTONE keys, stop at
an empty slot (boolean false: foundKey stays NO_KEY) or at an equal key
(boolean true). -/
def lookUpGo (data : List LEntry) (equal : ℕ → ℕ → Bool) (key : ℕ) :
    ℕ → ℕ → Option (ℕ × Bool)
  | _, 0 => none
  | i, n + 1 =>
    let e := data.getD i LEntry.init
    if e.m_key != TOMBSTONE && e.m_key == NO_KEY then some (i, false)
    else if e.m_key != TOMBSTONE && equal e.m_key key then some (i, true)
    else lookUpGo data equal key ((i + 1) % data.length) n

/-- LookUp (lfht.h:412-460): the do-while body runs at least once even when
m_maxProbeCnt is zero; when every allowed probe misses, the table is marked
full and no entry is returned. -/
def LTable.lookUp (t : LTable) (equal : ℕ → ℕ → Bool) (key hashValue : ℕ) :
    Option (ℕ × Bool) × LTable :=
  let r := lookUpGo t.m_data equal key (hashValue &&& (t.m_size - 1)) (max 1 t.m_maxProbeCnt)
  match r with
  | none => (none, { t with m_isFullFlag := true })
  | some x => (some x, t)

/-- The facade together with everything it owns (lfht.h:321-409): the
generation chain as a list (head first, m_next being the list order), the
retired list (m_toDelete, linked by m_nextToDelete, head first), the
generation counters, the approximate size, and the single sequential
thread's guard and per-guard write counters. m_tableToDeleteNumber is
initialised to (AtomicBase)(-1), which the unsigned comparison of
TryToDelete reads as 2^64 - 1. -/
structure HT where
  chain : List LTable
  retired : List LTable
  m_tableNumber : ℕ
  m_tableToDeleteNumber : ℕ
  m_size : ℤ
  m_guardedTable : ℕ
  m_copyWrites : ℕ
  m_putWrites : ℕ
deriving Repr

def HT.tableAt (st : HT) (ti : ℕ) : LTable := st.chain.getD ti (mkLTable 0 0)

def HT.setTable (st : HT) (ti : ℕ) (t : LTable) : HT :=
  { st with chain := st.chain.set ti t }

def HT.entryAt (st : HT) (ti ei : ℕ) : LEntry :=
  (st.tableAt ti).m_data.getD ei LEntry.init

def HT.setEntry (st : HT) (ti ei : ℕ) (e : LEntry) : HT :=
  st.setTable ti { st.tableAt ti with m_data := (st.tableAt ti).m_data.set ei e }

def HT.setEState (st : HT) (ti ei : ℕ) (s : EState) : HT :=
  st.setEntry ti ei { st.entryAt ti ei with m_state := s }

def HT.setEKey (st : HT) (ti ei k : ℕ) : HT :=
  st.setEntry ti ei { st.entryAt ti ei with m_key := k }

def HT.setEValue (st : HT) (ti ei v : ℕ) : HT :=
  st.setEntry ti ei { st.entryAt ti ei with m_value := v }

/-- CreateNext (lfht.h:462-488): under the spinlock; nothing happens when
the successor exists.  The successor size doubles when copy writes
dominate put writes; the copy-task size divides m_size by
(size_t)(0.3 * nextSize + 1), modelled as 3 * nextSize / 10 + 1; the guard
counters are reset.  maxProbeFn supplies the floating-point m_maxProbeCnt
of the new table. -/
def HT.createNext (st : HT) (maxProbeFn : ℕ → ℕ) (cur : ℕ) : HT :=
  if cur + 1 < st.chain.length then st
  else
    let t := st.tableAt cur
    let tcw := st.m_copyWrites
    let tpw := st.m_putWrites
    let nextSize := if tpw < tcw then 2 * t.m_size else t.m_size
    let t2 := { t with m_copyTaskSize := 2 * (t.m_size / (3 * nextSize / 10 + 1)) }
    { st with chain := (st.chain.set cur t2) ++ [mkLTable nextSize (maxProbeFn nextSize)],
              m_copyWrites := 0, m_putWrites := 0 }

/-- The chain-walking loop of Copy (lfht.h:521-549): while the source entry
is still COPYING, find a destination slot for the key in the successor of
cur, install key and value there if still absent, and mark the source entry
COPIED once the destination is usable; on a full successor move down the
chain.  Fuel bounds the walk. -/
def copyGo (equal : ℕ → ℕ → Bool) (maxProbeFn : ℕ → ℕ) (ti ei : ℕ)
    (entryKey entryValue hashValue : ℕ) : ℕ → HT → ℕ → HT
  | 0, st, _ => st
  | fuel + 1, st, cur =>
    if (st.entryAt ti ei).m_state ≠ .COPYING then st
    else
      let st1 := st.createNext maxProbeFn cur
      let target := cur + 1
      let lr := (st1.tableAt target).lookUp equal entryKey hashValue
      let st2 := st1.setTable target lr.2
      match lr.1 with
      | none => copyGo equal maxProbeFn ti ei entryKey entryValue hashValue fuel st2 target
      | some (di, matched) =>
        if (st2.tableAt target).m_isFullFlag then
          copyGo equal maxProbeFn ti ei entryKey entryValue hashValue fuel st2 target
        else
          let st3 := if matched then st2 else st2.setEKey target di entryKey
          let st4 :=
            if (st3.entryAt target di).m_value == NO_VALUE then
              { st3.setEValue target di entryValue with m_copyWrites := st3.m_copyWrites + 1 }
            else st3
          if (st4.entryAt target di).m_state ≠ .NORMAL then
            copyGo equal maxProbeFn ti ei entryKey entryValue hashValue fuel st4 cur
          else st4.setEState ti ei .COPIED

/-- Copy (lfht.h:490-550): entries with no key or a tombstone become COPIED
directly; a NORMAL entry is first locked by the NORMAL-to-COPYING CAS; an
entry with no value becomes COPIED; otherwise the value is pushed down the
chain. -/
def HT.copy (st : HT) (equal : ℕ → ℕ → Bool) (hash maxProbeFn : ℕ → ℕ)
    (ti ei fuel : ℕ) : HT :=
  let e := st.entryAt ti ei
  if e.m_key == NO_KEY || e.m_key == TOMBSTONE then st.setEState ti ei .COPIED
  else
    let st1 := if e.m_state = .NORMAL then st.setEState ti ei .COPYING else st
    let entryValue := (st1.entryAt ti ei).m_value
    if entryValue == NO_VALUE then st1.setEState ti ei .COPIED
    else copyGo equal maxProbeFn ti ei e.m_key entryValue (hash e.m_key) fuel st1 ti

/-- The value-update loop of Table::Put (lfht.h:591-617): assist a copy in
progress; fail on a COPIED entry; install into an empty value slot unless
IF_EXISTS (falling through when the entry was copied during the
assignment); then the general conditional CAS.  Sequentially every CAS
whose compare value was just read succeeds. -/
def putValueGo (equal : ℕ → ℕ → Bool) (hash maxProbeFn : ℕ → ℕ) (ti i : ℕ)
    (value : ℕ) (cond : PutCondition) : ℕ → HT → Option (EResult × HT)
  | 0, _ => none
  | fuel + 1, st =>
    let st1 :=
      if (st.entryAt ti i).m_state = .COPYING then st.copy equal hash maxProbeFn ti i fuel
      else st
    if (st1.entryAt ti i).m_state = .COPIED then some (.FAILED, st1)
    else
      let e1 := st1.entryAt ti i
      if e1.m_value == NO_VALUE ∧ cond.m_when = .IF_EXISTS then some (.FAILED, st1)
      else
        let tookFirst := e1.m_value == NO_VALUE
        let st2 := if tookFirst then st1.setEValue ti i value else st1
        if tookFirst ∧ (st2.entryAt ti i).m_state = .NORMAL then
          some (.SUCCEEDED, { st2 with m_putWrites := st2.m_putWrites + 1 })
        else if cond.m_when = .IF_ABSENT then some (.FAILED, st2)
        else
          let oldValue := (st2.entryAt ti i).m_value
          if cond.m_when = .IF_MATCHES ∧ ¬oldValue = cond.m_value then some (.FAILED, st2)
          else
            let st3 := st2.setEValue ti i value
            if (st3.entryAt ti i).m_state = .NORMAL then some (.SUCCEEDED, st3)
            else putValueGo equal hash maxProbeFn ti i value cond fuel st3

/-- Table::Put (lfht.h:552-618).  The outer while(!entry) loop re-runs only
after a lost key-install CAS, impossible sequentially, so one LookUp pass
suffices. -/
def tablePut (equal : ℕ → ℕ → Bool) (hash maxProbeFn : ℕ → ℕ) (st : HT) (ti : ℕ)
    (key value : ℕ) (cond : PutCondition) (fuel : ℕ) : Option (EResult × HT) :=
  let lr := (st.tableAt ti).lookUp equal key (hash key)
  let st1 := st.setTable ti lr.2
  match lr.1 with
  | none => some (.FULL_TABLE, st1)
  | some (i, matched) =>
    if (st1.tableAt ti).m_isFullFlag then
      some (.FULL_TABLE, st1.copy equal hash maxProbeFn ti i fuel)
    else if matched = false ∧ (cond.m_when = .IF_EXISTS ∨ cond.m_when = .IF_MATCHES) then
      some (.FAILED, st1)
    else
      let st2 := if matched then st1 else st1.setEKey ti i key
      putValueGo equal hash maxProbeFn ti i value cond fuel st2

/-- The deletion loop of Table::Delete (lfht.h:634-652): assist a copy,
answer FULL_TABLE on a COPIED entry, FAILED (or FULL_TABLE when the table
is full) when the key is absent, otherwise write TOMBSTONE over the key and
succeed when the entry state is NORMAL. -/
def deleteGo (equal : ℕ → ℕ → Bool) (hash maxProbeFn : ℕ → ℕ) (ti i : ℕ)
    (matched : Bool) : ℕ → HT → Option (EResult × HT)
  | 0, _ => none
  | fuel + 1, st =>
    let st1 :=
      if (st.entryAt ti i).m_state = .COPYING then st.copy equal hash maxProbeFn ti i fuel
      else st
    if (st1.entryAt ti i).m_state = .COPIED then some (.FULL_TABLE, st1)
    else if matched = false then
      if (st1.tableAt ti).m_isFullFlag then some (.FULL_TABLE, st1)
      else some (.FAILED, st1)
    else
      let st2 := st1.setEKey ti i TOMBSTONE
      if (st2.entryAt ti i).m_state = .NORMAL then some (.SUCCEEDED, st2)
      else deleteGo equal hash maxProbeFn ti i matched fuel st2

/-- Table::Delete (lfht.h:620-653). -/
def tableDelete (equal : ℕ → ℕ → Bool) (hash maxProbeFn : ℕ → ℕ) (st : HT)
    (ti key : ℕ) (fuel : ℕ) : Option (EResult × HT) :=
  let lr := (st.tableAt ti).lookUp equal key (hash key)
  let st1 := st.setTable ti lr.2
  match lr.1 with
  | none => some (.FULL_TABLE, st1)
  | some (i, matched) => deleteGo equal hash maxProbeFn ti i matched fuel st1

/-- PrepareToDelete (lfht.h:674-696): when this table is still the head,
unlink it (head := m_next), bump the generation, record the unlink
generation in m_tableToDeleteNumber and push the table onto the retired
list. -/
def HT.prepareToDelete (st : HT) (ti : ℕ) : HT :=
  let currentTableNumber := st.m_tableNumber
  if ti = 0 ∧ st.chain ≠ [] then
    { st with chain := st.chain.tail,
              m_tableNumber := st.m_tableNumber + 1,
              m_tableToDeleteNumber := currentTableNumber,
              retired := st.tableAt 0 :: st.retired }
  else st

/-- DoCopyTask (lfht.h:655-672): claim a chunk by fetch-and-add on
m_copiedCnt, copy the claimed range, and unlink the table once the counter
reaches the capacity. -/
def HT.doCopyTask (st : HT) (equal : ℕ → ℕ → Bool) (hash maxProbeFn : ℕ → ℕ)
    (ti fuel : ℕ) : HT :=
  let t := st.tableAt ti
  let st1 :=
    if t.m_copiedCnt < t.m_size then
      let finish := t.m_copiedCnt + t.m_copyTaskSize
      let start := finish - t.m_copyTaskSize
      let st0 := st.setTable ti { t with m_copiedCnt := finish }
      if start < t.m_size then
        (List.range (min t.m_size finish - start)).foldl
          (fun s j => s.copy equal hash maxProbeFn ti (start + j) fuel) st0
      else st0
    else st
  let t1 := st1.tableAt ti
  if t1.m_size ≤ t1.m_copiedCnt then st1.prepareToDelete ti else st1

/-- StartGuarding (lfht.h:984-1007): sequentially the generation is stable,
so the loop guards the current table number at once. -/
def HT.startGuarding (st : HT) : HT := { st with m_guardedTable := st.m_tableNumber }

/-- StopGuarding (lfht.h:1009-1019). -/
def HT.stopGuarding (st : HT) : HT := { st with m_guardedTable := NO_TABLE }

/-- TryToDelete (lfht.h:1021-1070) as invoked by the sequential facade: with
one thread the head cannot change between its snapshot (lfht.h:1029) and the
re-check (lfht.h:1039), so the ABA branch (lfht.h:1049-1068) is dead here;
that branch is modelled on the pointer graph by tryToDeleteAba below.  The
single guard is owned by the sequential thread, so GetFirstGuardedTable
(lfht.h:280-286) returns its guarded generation. -/
def HT.tryToDelete (st : HT) : HT :=
  match st.retired with
  | [] => st
  | _ =>
    let firstGuardedTable := st.m_guardedTable
    if st.m_tableToDeleteNumber < firstGuardedTable then { st with retired := [] }
    else st

/-- The chain walk of LFHashTable::Put (lfht.h:900-917): on FULL_TABLE make
sure the successor exists, help with one copy task, and move to the
successor; a head unlinked by the copy task shifts the chain indices by
one. -/
def facadePutGo (equal : ℕ → ℕ → Bool) (hash maxProbeFn : ℕ → ℕ)
    (key value : ℕ) (cond : PutCondition) : ℕ → HT → ℕ → Option (EResult × HT)
  | 0, _, _ => none
  | fuel + 1, st, ti =>
    match tablePut equal hash maxProbeFn st ti key value cond fuel with
    | none => none
    | some (r, st1) =>
      if r ≠ .FULL_TABLE then some (r, { st1 with m_size := st1.m_size + 1 })
      else
        let st2 := st1.createNext maxProbeFn ti
        let st3 := st2.doCopyTask equal hash maxProbeFn ti fuel
        let ti2 := if st3.chain.length < st2.chain.length then ti else ti + 1
        facadePutGo equal hash maxProbeFn key value cond fuel st3 ti2

/-- LFHashTable::Put (lfht.h:884-923): an IF_MATCHES condition whose compare
value is NO_VALUE is rewritten to IF_ABSENT before anything runs
(lfht.h:890-891); m_size is incremented whenever the per-table result is not
FULL_TABLE (lfht.h:904-906); the caller learns whether the result was
SUCCEEDED. -/
def facadePut (equal : ℕ → ℕ → Bool) (hash maxProbeFn : ℕ → ℕ) (st : HT)
    (key value : ℕ) (cond : PutCondition) (fuel : ℕ) : Option (Bool × HT) :=
  let cond1 :=
    if cond.m_when = .IF_MATCHES ∧ cond.m_value = NO_VALUE then
      { cond with m_when := When.IF_ABSENT }
    else cond
  let st1 := st.startGuarding
  match facadePutGo equal hash maxProbeFn key value cond1 fuel st1 0 with
  | none => none
  | some (r, st2) =>
    let st3 := st2.stopGuarding.tryToDelete
    some (r = .SUCCEEDED, st3)

/-- PutIfMatch (lfht.h:925-929). -/
def putIfMatch (equal : ℕ → ℕ → Bool) (hash maxProbeFn : ℕ → ℕ) (st : HT)
    (key oldValue newValue fuel : ℕ) : Option (Bool × HT) :=
  facadePut equal hash maxProbeFn st key newValue ⟨When.IF_MATCHES, oldValue⟩ fuel

/-- PutIfAbsent (lfht.h:931-935); PutCondition(IF_ABSENT) defaults its
compare value to NO_VALUE (lfht.h:359). -/
def putIfAbsent (equal : ℕ → ℕ → Bool) (hash maxProbeFn : ℕ → ℕ) (st : HT)
    (key newValue fuel : ℕ) : Option (Bool × HT) :=
  facadePut equal hash maxProbeFn st key newValue ⟨When.IF_ABSENT, NO_VALUE⟩ fuel

/-- PutIfExists (lfht.h:937-941). -/
def putIfExists (equal : ℕ → ℕ → Bool) (hash maxProbeFn : ℕ → ℕ) (st : HT)
    (key newValue fuel : ℕ) : Option (Bool × HT) :=
  facadePut equal hash maxProbeFn st key newValue ⟨When.IF_EXISTS, NO_VALUE⟩ fuel

/-- The chain walk of LFHashTable::Delete (lfht.h:953-962). -/
def facadeDeleteGo (equal : ℕ → ℕ → Bool) (hash maxProbeFn : ℕ → ℕ) (key : ℕ) :
    ℕ → HT → ℕ → Option (EResult × HT)
  | 0, _, _ => none
  | fuel + 1, st, ti =>
    match tableDelete equal hash maxProbeFn st ti key fuel with
    | none => none
    | some (r, st1) =>
      if r ≠ .FULL_TABLE then some (r, st1)
      else if st1.chain.length ≤ ti + 1 then some (r, st1)
      else facadeDeleteGo equal hash maxProbeFn key fuel st1 (ti + 1)

/-- LFHashTable::Delete (lfht.h:943-976): walk the chain until a non-FULL
answer; true and a size decrement exactly on SUCCEEDED. -/
def facadeDelete (equal : ℕ → ℕ → Bool) (hash maxProbeFn : ℕ → ℕ) (st : HT)
    (key fuel : ℕ) : Option (Bool × HT) :=
  let st1 := st.startGuarding
  match facadeDeleteGo equal hash maxProbeFn key fuel st1 0 with
  | none => none
  | some (r, st2) =>
    let st3 := st2.stopGuarding.tryToDelete
    if r = .SUCCEEDED then some (true, { st3 with m_size := st3.m_size - 1 })
    else some (false, st3)

/-- One stage of the bit smear in NextTwoPower. -/
def orShift (k v : ℕ) : ℕ := v ||| (v >>> k)

/-- NextTwoPower (lfht.h:760-771), with the 64-bit wrap of size_t made
explicit on the two increments. -/
def NextTwoPower (v : ℕ) : ℕ :=
  let v1 := (v + 1) % 2 ^ 64
  let v2 := orShift 32 (orShift 16 (orShift 8 (orShift 4 (orShift 2 (orShift 1 v1)))))
  (v2 + 1) % 2 ^ 64

/-- The capacity of the initial table chosen by the facade constructor
(lfht.h:783-784): NextTwoPower(initialSize); the density argument is not
consulted. -/
def initialCapacity (initialSize : ℕ) : ℕ := NextTwoPower initialSize

/-- The facade constructor (lfht.h:773-788), the floating-point
m_maxProbeCnt of the head table being an input. -/
def mkHT (initialSize maxProbeCnt : ℕ) : HT :=
  { chain := [mkLTable (initialCapacity initialSize) maxProbeCnt],
    retired := [],
    m_tableNumber := 0,
    m_tableToDeleteNumber := 2 ^ 64 - 1,
    m_size := 0,
    m_guardedTable := NO_TABLE,
    m_copyWrites := 0,
    m_putWrites := 0 }

/-- The count of live entries over the chain and the retired list: entries
whose key is a user key and whose value is present and whose slot was not
migrated away.  This is the specification-side reading of the number of
keys whose last successful operation installed a live value, evaluated on
the concrete states of this file. -/
def liveCount (st : HT) : ℕ :=
  (st.chain.map fun t =>
    (t.m_data.filter fun e =>
      e.m_key ≠ NO_KEY ∧ e.m_key ≠ TOMBSTONE ∧ e.m_value ≠ NO_VALUE ∧
        e.m_state ≠ .COPIED).length).sum

/-! ### The reclamation path on the pointer graph (TryToDelete with interference) -/

/-- Walk m_next to the end of the successor chain: the tail search of the
ABA branch (lfht.h:1057), fuel-bounded. -/
def walkNext (next : ℕ → Option ℕ) : ℕ → ℕ → ℕ
  | t, 0 => t
  | t, fuel + 1 =>
    match next t with
    | none => t
    | some u => walkNext next u fuel

/-- Collect the retired list reachable from a head along m_nextToDelete:
the free loop of TryToDelete (lfht.h:1040-1047), fuel-bounded. -/
def chainToDelete (nextToDelete : ℕ → Option ℕ) : Option ℕ → ℕ → List ℕ
  | none, _ => []
  | some _, 0 => []
  | some t, fuel + 1 => t :: chainToDelete nextToDelete (nextToDelete t) fuel

/-- TryToDelete (lfht.h:1021-1070) on the pointer graph, the moments at
which a concurrent environment may interfere being explicit inputs: tables
are numeric ids, next and nextToDelete are their m_next and m_nextToDelete
pointers; toDelSnap is the m_toDelete snapshot (lfht.h:1026), oldHead the
head snapshot (lfht.h:1029), headNow the value of m_head at the re-check
(lfht.h:1039), and pushedToDelete the value of m_toDelete that the re-link
loop reads (lfht.h:1060) after the environment pushed tables.  The CAS of
lfht.h:1038 and the re-link CAS of lfht.h:1062 succeed (no concurrent CAS
on m_toDelete is interleaved with them).  The result lists the freed
tables and gives the new m_toDelete and the updated m_nextToDelete map. -/
def tryToDeleteAba (next nextToDelete : ℕ → Option ℕ) (toDelSnap : Option ℕ)
    (oldHead headNow firstGuardedTable tableToDeleteNumber : ℕ)
    (pushedToDelete : Option ℕ) (fuel : ℕ) :
    List ℕ × Option ℕ × (ℕ → Option ℕ) :=
  match toDelSnap with
  | none => ([], toDelSnap, nextToDelete)
  | some toDel =>
    if tableToDeleteNumber < firstGuardedTable then
      if headNow = oldHead then
        (chainToDelete nextToDelete (some toDel) fuel, none, nextToDelete)
      else
        let tail := walkNext next toDel fuel
        ([], some toDel, fun t => if t = tail then pushedToDelete else nextToDelete t)
    else ([], toDelSnap, nextToDelete)

end Old

/-! ## Facts about the pointer encoding on canonical words -/

namespace PtrV

theorem canonical_facts {v : ℕ} (h : Canonical v) :
    IsCopying v = false ∧ PureValue v = v ∧
    IsCopying (SetCopying v) = true ∧ PureValue (SetCopying v) = PureValue v ∧
    (IsReserved v = true ↔ (v = 0 ∨ v = 1 ∨ v = 2 ∨ v = 3)) := by
  rcases h with hlo | ⟨hhi, hub⟩
  · -- user-space half: bits 62 and 63 clear
    have hp47 : (2 : ℕ) ^ 47 = 140737488355328 := by norm_num
    have hb62 : b62 v = 0 := by
      rw [b62_eq]
      omega
    have hb63 : b63 v = 0 := by
      rw [b63_eq]
      omega
    have hnc : IsCopying v = false := by
      rw [IsCopying, hb62, hb63]
      rfl
    have hmask : SIGNIFICANT_BITS = 2 ^ 48 - 1 := by norm_num [SIGNIFICANT_BITS]
    have hpure : PureValue v = v := by
      rw [PureValue, if_neg (by omega), hmask, Nat.and_pow_two_sub_one_eq_mod]
      omega
    have hset : SetCopying v = 2 ^ 63 + v := by
      rw [SetCopying, if_pos hb62, Nat.shiftLeft_eq, one_mul, Nat.lor_comm]
      exact lor_eq_add_of_disjoint (n := 63) (by norm_num) (by omega)
    have hb62s : b62 (2 ^ 63 + v) = 0 := by
      rw [b62_eq]
      omega
    have hb63s : b63 (2 ^ 63 + v) = 1 := by
      rw [b63_eq]
      omega
    have hcs : IsCopying (SetCopying v) = true := by
      rw [hset, IsCopying, hb62s, hb63s]
      rfl
    have hps : PureValue (SetCopying v) = PureValue v := by
      rw [hset, PureValue, if_neg (by rw [hb62s]; omega), hmask,
        Nat.and_pow_two_sub_one_eq_mod, hpure]
      omega
    refine ⟨hnc, hpure, hcs, hps, ?_⟩
    rw [IsReserved]
    simp only [decide_eq_true_eq]
    omega
  · -- kernel-space half: bits 62 and 63 set
    have hb62 : b62 v = 1 := by
      rw [b62_eq]
      omega
    have hb63 : b63 v = 1 := by
      rw [b63_eq]
      omega
    have hnc : IsCopying v = false := by
      rw [IsCopying, hb62, hb63]
      rfl
    have hM : NOT_SIGNIFICANT = 2 ^ 64 - 2 ^ 48 := by norm_num [NOT_SIGNIFICANT]
    have hpure : PureValue v = v := by
      rw [PureValue, if_pos hb62, hM]
      have hdecomp : v = (2 ^ 64 - 2 ^ 48) + (v - (2 ^ 64 - 2 ^ 48)) := by omega
      rw [hdecomp, add_lor_of_disjoint (n := 48) (by norm_num) (by norm_num) (by omega),
        Nat.or_self]
    have hset : SetCopying v = v - 2 ^ 63 := by
      have hmask : (0x7FFFFFFFFFFFFFFF : ℕ) = 2 ^ 63 - 1 := by norm_num
      rw [SetCopying, if_neg (by omega), hmask, Nat.and_pow_two_sub_one_eq_mod]
      omega
    have hb62s : b62 (v - 2 ^ 63) = 1 := by
      rw [b62_eq]
      omega
    have hb63s : b63 (v - 2 ^ 63) = 0 := by
      rw [b63_eq]
      omega
    have hcs : IsCopying (SetCopying v) = true := by
      rw [hset, IsCopying, hb62s, hb63s]
      rfl
    have hps : PureValue (SetCopying v) = PureValue v := by
      rw [hset, PureValue, if_pos hb62s, hM, hpure]
      have hdecomp : v - 2 ^ 63 = (2 ^ 63 - 2 ^ 48) + (v - 2 ^ 63 - (2 ^ 63 - 2 ^ 48)) := by
        omega
      rw [hdecomp, add_lor_of_disjoint (n := 48) (by norm_num) (by norm_num) (by omega)]
      have hlit : (2 ^ 63 - 2 ^ 48 : ℕ) ||| (2 ^ 64 - 2 ^ 48) = 2 ^ 64 - 2 ^ 48 := by decide
      rw [hlit]
      omega
    refine ⟨hnc, hpure, hcs, hps, ?_⟩
    rw [IsReserved]
    simp only [decide_eq_true_eq]
    omega

end PtrV

/-! ## Claim C7 -/

/-- C7 counterexample.  The claim quantifies over every machine word of
either encoding, but on the integer encoding the word 2^63 + 5 — a live
value 5 tagged with the COPYING bit — is classified reserved by IsReserved
although its pure value 5 is none of the four sentinels. -/
theorem C7_counterexample :
    SizeT.IsReserved (SizeT.COPYING_FLAG + 5) = true ∧
    SizeT.IsCopying (SizeT.COPYING_FLAG + 5) = true ∧
    SizeT.PureValue (SizeT.COPYING_FLAG + 5) = 5 ∧
    ¬(5 = SizeT.NoneV ∨ 5 = SizeT.BabyV ∨ 5 = SizeT.CopiedV ∨ 5 = SizeT.DeletedV) := by
  decide

/-- C7 (amended): PureValue strips the COPYING bit and IsCopying tests it;
the equivalence IsReserved(v) ↔ PureValue(v) ∈ {NONE, BABY, COPIED,
DELETED} holds for every integer-encoded word that does not carry the
COPYING bit, and for every canonical-form pointer word — the code only
applies IsReserved to pure values; on COPYING-tagged words the equivalence
can fail. -/
theorem C7_amended :
    (∀ v : ℕ, SizeT.PureValue (SizeT.SetCopying v) = SizeT.PureValue v ∧
      SizeT.IsCopying (SizeT.SetCopying v) = true ∧
      SizeT.IsCopying (SizeT.PureValue v) = false) ∧
    (∀ v : ℕ, v < 2 ^ 64 → SizeT.IsCopying v = false →
      (SizeT.IsReserved v = true ↔
        (SizeT.PureValue v = SizeT.NoneV ∨ SizeT.PureValue v = SizeT.BabyV ∨
         SizeT.PureValue v = SizeT.CopiedV ∨ SizeT.PureValue v = SizeT.DeletedV))) ∧
    (∀ v : ℕ, PtrV.Canonical v →
      PtrV.IsCopying v = false ∧
      PtrV.IsCopying (PtrV.SetCopying v) = true ∧
      PtrV.PureValue (PtrV.SetCopying v) = PtrV.PureValue v ∧
      (PtrV.IsReserved v = true ↔
        (PtrV.PureValue v = 0 ∨ PtrV.PureValue v = 1 ∨ PtrV.PureValue v = 2 ∨
         PtrV.PureValue v = 3))) := by
  refine ⟨?_, ?_, ?_⟩
  · intro v
    exact ⟨SizeT.PureValue_SetCopying v, SizeT.IsCopying_SetCopying v,
      SizeT.IsCopying_PureValue v⟩
  · intro v hv hc
    rw [SizeT.PureValue_of_not_copying hv hc]
    have hlt : v < 2 ^ 63 := SizeT.lt_of_not_copying hv hc
    rw [SizeT.IsReserved]
    simp only [Bool.or_eq_true, beq_iff_eq, decide_eq_true_eq]
    rw [show SizeT.NoneV = 0 from rfl, show SizeT.BabyV = 2 ^ 63 - 3 by norm_num [SizeT.BabyV],
      show SizeT.CopiedV = 2 ^ 63 - 2 by norm_num [SizeT.CopiedV],
      show SizeT.DeletedV = 2 ^ 63 - 1 by norm_num [SizeT.DeletedV]]
    omega
  · intro v hv
    obtain ⟨h1, h2, h3, h4, h5⟩ := PtrV.canonical_facts hv
    refine ⟨h1, h3, h4, ?_⟩
    rw [h2]
    exact h5

/-- C7 witness: the amended theorem applied to the integer word 5 and the
canonical pointer word 3. -/
theorem C7_witness :
    ((5 : ℕ) < 2 ^ 64 ∧ SizeT.IsCopying 5 = false ∧ PtrV.Canonical 3) ∧
    (SizeT.IsReserved 5 = true ↔
      (SizeT.PureValue 5 = SizeT.NoneV ∨ SizeT.PureValue 5 = SizeT.BabyV ∨
       SizeT.PureValue 5 = SizeT.CopiedV ∨ SizeT.PureValue 5 = SizeT.DeletedV)) ∧
    (PtrV.IsReserved 3 = true ↔
      (PtrV.PureValue 3 = 0 ∨ PtrV.PureValue 3 = 1 ∨ PtrV.PureValue 3 = 2 ∨
       PtrV.PureValue 3 = 3)) :=
  ⟨⟨by norm_num, by decide, Or.inl (by norm_num)⟩,
    C7_amended.2.1 5 (by norm_num) (by decide),
    (C7_amended.2.2 3 (Or.inl (by norm_num))).2.2.2⟩

/-! ## Claims C2 and C9: the slot-value lattice and Copy idempotence -/

theorem slotStep_pure_terminal {w w2 : ℕ} (h : Tbl.SlotStep w w2) :
    (SizeT.PureValue w = SizeT.CopiedV → SizeT.PureValue w2 = SizeT.CopiedV) ∧
    (SizeT.PureValue w = SizeT.DeletedV → SizeT.PureValue w2 = SizeT.DeletedV) := by
  cases h with
  | setCopying =>
    rw [SizeT.PureValue_SetCopying]
    exact ⟨id, id⟩
  | cas vv hw hterm hv hgood =>
    exact ⟨fun hc => absurd hc hterm.1, fun hd => absurd hd hterm.2⟩
  | storeCopiedBaby hb =>
    exact ⟨fun _ => by decide, fun hd => absurd (hb.symm.trans hd) (by decide)⟩
  | storeDeletedNone hb =>
    exact ⟨fun hc => absurd (hb.symm.trans hc) (by decide), fun _ => by decide⟩
  | storeCopiedLive hb =>
    refine ⟨fun _ => by decide, fun hd => ?_⟩
    rw [hd] at hb
    exact absurd hb (by decide)
  | storeCopiedAgain hb =>
    exact ⟨fun _ => by decide, fun hd => absurd (hb.symm.trans hd) (by decide)⟩
  | storeDeletedAgain hb =>
    exact ⟨fun hc => absurd (hb.symm.trans hc) (by decide), fun _ => by decide⟩

theorem slotReach_pure_terminal {w w2 : ℕ} (h : Tbl.SlotReach w w2) :
    (SizeT.PureValue w = SizeT.CopiedV → SizeT.PureValue w2 = SizeT.CopiedV) ∧
    (SizeT.PureValue w = SizeT.DeletedV → SizeT.PureValue w2 = SizeT.DeletedV) := by
  induction h with
  | refl => exact ⟨id, id⟩
  | tail hstep hlast ih =>
    have hs := slotStep_pure_terminal hlast
    exact ⟨fun hc => hs.1 (ih.1 hc), fun hd => hs.2 (ih.2 hd)⟩

theorem slotStep_flag_clear {w w2 : ℕ} (h : Tbl.SlotStep w w2)
    (h1 : SizeT.IsCopying w = true) (h2 : SizeT.IsCopying w2 = false) :
    w2 = SizeT.CopiedV ∨ w2 = SizeT.DeletedV := by
  cases h with
  | setCopying => exact absurd h2 (by rw [SizeT.IsCopying_SetCopying]; simp)
  | cas vv hw hterm hv hgood => exact absurd h1 (by rw [hw]; simp)
  | storeCopiedBaby hb => exact Or.inl rfl
  | storeDeletedNone hb => exact Or.inr rfl
  | storeCopiedLive hb => exact Or.inl rfl
  | storeCopiedAgain hb => exact Or.inl rfl
  | storeDeletedAgain hb => exact Or.inr rfl

/-- C2 counterexample.  A reachable execution of the slot protocol: a fresh
BABY slot receives a live value by an unconditional put, the value is then
deleted (CAS to NONE), and a migrator marks the slot COPYING; the very next
protocol write stores DELETED, clearing the COPYING bit without the slot
ever becoming COPIED — refuting the claim that the bit is only cleared by
becoming COPIED.  Moreover COPIED is not terminal for the raw slot value:
Copy on an already-COPIED slot sets the COPYING bit on it. -/
theorem C2_counterexample :
    Tbl.SlotReach SizeT.BabyV (SizeT.SetCopying SizeT.NoneV) ∧
    Tbl.SlotStep (SizeT.SetCopying SizeT.NoneV) SizeT.DeletedV ∧
    SizeT.IsCopying (SizeT.SetCopying SizeT.NoneV) = true ∧
    SizeT.IsCopying SizeT.DeletedV = false ∧
    SizeT.DeletedV ≠ SizeT.CopiedV ∧
    Tbl.SlotStep SizeT.CopiedV (SizeT.SetCopying SizeT.CopiedV) ∧
    SizeT.SetCopying SizeT.CopiedV ≠ SizeT.CopiedV := by
  refine ⟨?_, ?_, by decide, by decide, by decide, ?_, by decide⟩
  · have h1 : Tbl.SlotStep SizeT.BabyV 5 :=
      Tbl.SlotStep.cas _ _ (by decide) (by decide) (by decide) (by decide)
    have h2 : Tbl.SlotStep 5 SizeT.NoneV :=
      Tbl.SlotStep.cas _ _ (by decide) (by decide) (by decide) (by decide)
    have h3 : Tbl.SlotStep SizeT.NoneV (SizeT.SetCopying SizeT.NoneV) :=
      Tbl.SlotStep.setCopying _
    exact Relation.ReflTransGen.head h1 (Relation.ReflTransGen.head h2
      (Relation.ReflTransGen.single h3))
  · exact Tbl.SlotStep.storeDeletedNone _ (by decide)
  · exact Tbl.SlotStep.setCopying _

/-- C2 (amended): a slot starts as BABY, which may precede any other state;
once the COPYING bit is set, a write that clears it can only store one of
the terminals COPIED or DELETED; and COPIED and DELETED are terminal for
the pure slot value — no later protocol write changes the pure value again,
although a later Copy may set the COPYING bit on the raw word. -/
theorem C2_amended :
    Tbl.Entry.init.m_Value = SizeT.BabyV ∧
    (∀ w w2, Tbl.SlotReach w w2 →
      (SizeT.PureValue w = SizeT.CopiedV → SizeT.PureValue w2 = SizeT.CopiedV) ∧
      (SizeT.PureValue w = SizeT.DeletedV → SizeT.PureValue w2 = SizeT.DeletedV)) ∧
    (∀ w w2, Tbl.SlotStep w w2 → SizeT.IsCopying w = true →
      SizeT.IsCopying w2 = false → w2 = SizeT.CopiedV ∨ w2 = SizeT.DeletedV) :=
  ⟨rfl, fun _ _ h => slotReach_pure_terminal h, fun _ _ h => slotStep_flag_clear h⟩

/-- C2 witness: the amended theorem on the one-step execution that sets the
COPYING bit on a COPIED slot — the pure value stays COPIED. -/
theorem C2_witness :
    Tbl.SlotReach SizeT.CopiedV (SizeT.SetCopying SizeT.CopiedV) ∧
    SizeT.PureValue (SizeT.SetCopying SizeT.CopiedV) = SizeT.CopiedV := by
  have hr : Tbl.SlotReach SizeT.CopiedV (SizeT.SetCopying SizeT.CopiedV) :=
    Relation.ReflTransGen.single (Tbl.SlotStep.setCopying _)
  exact ⟨hr, (C2_amended.2.1 _ _ hr).1 (by decide)⟩

theorem copyValue_pure_copied {w : ℕ} (h : SizeT.PureValue w = SizeT.CopiedV) :
    Tbl.copyValue w = (SizeT.SetCopying w, false) := by
  have hp : SizeT.PureValue (SizeT.SetCopying w) = SizeT.CopiedV := by
    rw [SizeT.PureValue_SetCopying]
    exact h
  simp [Tbl.copyValue, hp]

/-- C9: Copy is idempotent on a COPIED slot.  Any number of repeated Copy
invocations on a slot whose pure value is COPIED leave the observable state
unchanged — the pure value stays COPIED, GetEntry still reads COPIED — and
no write is propagated to any successor table (the propagation flag of
copyValue is false). -/
theorem C9_copy_idempotent (w n : ℕ) (h : SizeT.PureValue w = SizeT.CopiedV) :
    SizeT.PureValue ((fun x => (Tbl.copyValue x).1)^[n] w) = SizeT.CopiedV ∧
    (Tbl.copyValue ((fun x => (Tbl.copyValue x).1)^[n] w)).2 = false ∧
    (Tbl.getEntry ((fun x => (Tbl.copyValue x).1)^[n] w)).2.1 = SizeT.CopiedV := by
  have hiter : ∀ m w2, SizeT.PureValue w2 = SizeT.CopiedV →
      SizeT.PureValue ((fun x => (Tbl.copyValue x).1)^[m] w2) = SizeT.CopiedV := by
    intro m
    induction m with
    | zero =>
      intro w2 h2
      simpa using h2
    | succ k ih =>
      intro w2 h2
      rw [Function.iterate_succ_apply]
      refine ih _ ?_
      rw [copyValue_pure_copied h2, SizeT.PureValue_SetCopying]
      exact h2
  have hp := hiter n w h
  refine ⟨hp, ?_, ?_⟩
  · rw [copyValue_pure_copied hp]
  · by_cases hc : SizeT.IsCopying ((fun x => (Tbl.copyValue x).1)^[n] w) = true
    · simp [Tbl.getEntry, hc, copyValue_pure_copied hp, SizeT.PureValue_SetCopying, hp]
    · simp only [Bool.not_eq_true] at hc
      simp [Tbl.getEntry, hc, hp]

/-- C9 witness: two repeated copies of the COPIED slot itself. -/
theorem C9_witness :
    SizeT.PureValue SizeT.CopiedV = SizeT.CopiedV ∧
    (SizeT.PureValue ((fun x => (Tbl.copyValue x).1)^[2] SizeT.CopiedV) = SizeT.CopiedV ∧
     (Tbl.copyValue ((fun x => (Tbl.copyValue x).1)^[2] SizeT.CopiedV)).2 = false ∧
     (Tbl.getEntry ((fun x => (Tbl.copyValue x).1)^[2] SizeT.CopiedV)).2.1 = SizeT.CopiedV) :=
  ⟨by decide, C9_copy_idempotent SizeT.CopiedV 2 (by decide)⟩

/-! ## Claim C3: result classification of the conditional per-table Put -/

theorem putEntry_eq (w v : ℕ) (cond : Tbl.PutCondition) :
    Tbl.putEntry w v cond =
      (if SizeT.IsCopying w then (Tbl.EResult.FULL_TABLE, (Tbl.copyValue w).1)
       else if SizeT.PureValue w = SizeT.DeletedV ∨ SizeT.PureValue w = SizeT.CopiedV then
         (Tbl.EResult.FULL_TABLE, w)
       else if Tbl.condHolds (SizeT.PureValue w) cond then (Tbl.EResult.SUCCEEDED, v)
       else (Tbl.EResult.FAILED, w)) := by
  unfold Tbl.putEntry
  by_cases hc : SizeT.IsCopying w
  · simp [hc]
  · simp only [hc, Bool.false_eq_true, if_false]
    by_cases hd : SizeT.PureValue w = SizeT.DeletedV ∨ SizeT.PureValue w = SizeT.CopiedV
    · simp [hd]
    · simp only [hd, if_false]
      cases hwn : cond.m_When
      · simp [Tbl.condHolds, hwn]
      · cases ha : (SizeT.PureValue w == SizeT.NoneV) <;>
          cases hb : (SizeT.PureValue w == SizeT.BabyV) <;>
            simp [Tbl.condHolds, hwn, ha, hb]
      · cases ha : (SizeT.PureValue w == SizeT.BabyV) <;>
          cases hb : (SizeT.PureValue w == SizeT.NoneV) <;>
            simp [Tbl.condHolds, hwn, ha, hb]
      · cases ha : Tbl.valuesAreEqual (SizeT.PureValue w) cond.m_Value <;>
          simp [Tbl.condHolds, hwn, ha]
      · cases ha : (SizeT.PureValue w == SizeT.BabyV) <;>
          simp [Tbl.condHolds, hwn, ha]

/-- C3 counterexample.  On a table whose slot for key 6 holds the terminal
value COPIED, the per-table Put with condition ALWAYS answers FULL_TABLE,
not FAILED as the claim requires for a slot that transitioned to a
terminal state. -/
theorem C3_counterexample :
    (Tbl.put ⟨2, 2, false, 2, [⟨6, SizeT.CopiedV⟩, Tbl.Entry.init]⟩ 6 5
        ⟨Tbl.When.ALWAYS, SizeT.NoneV⟩ 0 (fun k => k)).map (fun r => r.1) =
      some Tbl.EResult.FULL_TABLE ∧
    Tbl.EResult.FULL_TABLE ≠ Tbl.EResult.FAILED ∧
    (Tbl.putEntry SizeT.CopiedV 5 ⟨Tbl.When.ALWAYS, SizeT.NoneV⟩).1 =
      Tbl.EResult.FULL_TABLE := by
  refine ⟨by decide, by decide, by decide⟩

/-- C3 (amended): the per-table Put answers SUCCEEDED iff the value CAS
succeeded under the condition (unflagged, non-terminal slot, condition
met — and then the new value is stored); FAILED iff the condition was not
met on an unflagged, non-terminal slot; and FULL_TABLE exactly when the
slot carries the COPYING bit or holds a terminal value (COPIED or
DELETED) — and also, through FetchEntry, when the probe limit was exceeded
(no slot) or the fullness flag is set. -/
theorem C3_amended (w v : ℕ) (cond : Tbl.PutCondition) :
    ((Tbl.putEntry w v cond).1 = Tbl.EResult.SUCCEEDED ↔
      SizeT.IsCopying w = false ∧ SizeT.PureValue w ≠ SizeT.CopiedV ∧
      SizeT.PureValue w ≠ SizeT.DeletedV ∧
      Tbl.condHolds (SizeT.PureValue w) cond = true) ∧
    ((Tbl.putEntry w v cond).1 = Tbl.EResult.FAILED ↔
      SizeT.IsCopying w = false ∧ SizeT.PureValue w ≠ SizeT.CopiedV ∧
      SizeT.PureValue w ≠ SizeT.DeletedV ∧
      Tbl.condHolds (SizeT.PureValue w) cond = false) ∧
    ((Tbl.putEntry w v cond).1 = Tbl.EResult.FULL_TABLE ↔
      SizeT.IsCopying w = true ∨ SizeT.PureValue w = SizeT.CopiedV ∨
      SizeT.PureValue w = SizeT.DeletedV) ∧
    ((Tbl.putEntry w v cond).1 = Tbl.EResult.SUCCEEDED → (Tbl.putEntry w v cond).2 = v) ∧
    (∀ (t : Tbl.TableState) (key : ℕ) (b : Bool) (c : Tbl.PutCondition),
      (Tbl.fetchEntry t key none b c).1 = Tbl.EResult.FULL_TABLE) ∧
    (∀ (t : Tbl.TableState) (key i : ℕ) (b : Bool) (c : Tbl.PutCondition),
      t.m_IsFullFlag = true →
      (Tbl.fetchEntry t key (some i) b c).1 = Tbl.EResult.FULL_TABLE) := by
  have hfe1 : ∀ (t : Tbl.TableState) (key : ℕ) (b : Bool) (c : Tbl.PutCondition),
      (Tbl.fetchEntry t key none b c).1 = Tbl.EResult.FULL_TABLE := fun _ _ _ _ => rfl
  have hfe2 : ∀ (t : Tbl.TableState) (key i : ℕ) (b : Bool) (c : Tbl.PutCondition),
      t.m_IsFullFlag = true →
      (Tbl.fetchEntry t key (some i) b c).1 = Tbl.EResult.FULL_TABLE := by
    intro t key i b c hf
    simp [Tbl.fetchEntry, hf]
  have hcl := putEntry_eq w v cond
  by_cases hc : SizeT.IsCopying w
  · refine ⟨?_, ?_, ?_, ?_, hfe1, hfe2⟩ <;> simp [hcl, hc]
  · by_cases hd2 : SizeT.PureValue w = SizeT.DeletedV
    · refine ⟨?_, ?_, ?_, ?_, hfe1, hfe2⟩ <;> simp [hcl, hc, hd2]
    · by_cases hd3 : SizeT.PureValue w = SizeT.CopiedV
      · refine ⟨?_, ?_, ?_, ?_, hfe1, hfe2⟩ <;> simp [hcl, hc, hd2, hd3]
      · by_cases hh : Tbl.condHolds (SizeT.PureValue w) cond
        · refine ⟨?_, ?_, ?_, ?_, hfe1, hfe2⟩ <;> simp [hcl, hc, hd2, hd3, hh]
        · refine ⟨?_, ?_, ?_, ?_, hfe1, hfe2⟩ <;> simp [hcl, hc, hd2, hd3, hh]

/-- C3 witness: the amended classification applied to an unflagged live
slot holding 9 under an IF_MATCHES(9) put. -/
theorem C3_witness :
    (Tbl.putEntry 9 5 ⟨Tbl.When.IF_MATCHES, 9⟩).1 = Tbl.EResult.SUCCEEDED ∧
    (Tbl.putEntry 9 5 ⟨Tbl.When.IF_MATCHES, 9⟩).2 = 5 := by
  have hcl := C3_amended 9 5 ⟨Tbl.When.IF_MATCHES, 9⟩
  have hs : (Tbl.putEntry 9 5 ⟨Tbl.When.IF_MATCHES, 9⟩).1 = Tbl.EResult.SUCCEEDED :=
    hcl.1.mpr ⟨by decide, by decide, by decide, by decide⟩
  exact ⟨hs, hcl.2.2.2.1 hs⟩

/-! ## Claim C4: LookUp probes linearly and returns the first hit -/

namespace Tbl

/-- The hit condition of the probe loop (table.h:394-403): the slot key
equals the probe key or is NONE. -/
def probeHit (key : ℕ) (e : Entry) : Bool := keysAreEqual e.m_Key key || keyIsNone e.m_Key

end Tbl

theorem lookUpGo_some (data : List Tbl.Entry) (key : ℕ) :
    ∀ (n i r : ℕ) (b : Bool) (rem : ℕ), 0 < data.length → i < data.length →
      Tbl.lookUpGo data key i n = (some (r, b), rem) →
      ∃ j < n, r = (i + j) % data.length ∧
        Tbl.probeHit key (data.getD r Tbl.Entry.init) = true ∧
        ∀ j2 < j,
          Tbl.probeHit key (data.getD ((i + j2) % data.length) Tbl.Entry.init) = false := by
  intro n
  induction n with
  | zero =>
    intro i r b rem hpos hi h
    simp [Tbl.lookUpGo] at h
  | succ m ih =>
    intro i r b rem hpos hi h
    rw [Tbl.lookUpGo] at h
    by_cases h1 : Tbl.keysAreEqual (data.getD i Tbl.Entry.init).m_Key key = true
    · simp only [h1, if_true] at h
      have hr : r = i := by
        have h2 := congrArg Prod.fst h
        simp at h2
        exact h2.1.symm
      refine ⟨0, by omega, by rw [hr, Nat.add_zero, Nat.mod_eq_of_lt hi], ?_, by omega⟩
      rw [hr]
      unfold Tbl.probeHit
      rw [h1]
      rfl
    · simp only [Bool.not_eq_true] at h1
      rw [h1] at h
      simp only [Bool.false_eq_true, if_false] at h
      by_cases h2 : Tbl.keyIsNone (data.getD i Tbl.Entry.init).m_Key = true
      · simp only [h2, if_true] at h
        have hr : r = i := by
          have h3 := congrArg Prod.fst h
          simp at h3
          exact h3.1.symm
        refine ⟨0, by omega, by rw [hr, Nat.add_zero, Nat.mod_eq_of_lt hi], ?_, by omega⟩
        rw [hr]
        unfold Tbl.probeHit
        rw [h1, h2]
        rfl
      · simp only [Bool.not_eq_true] at h2
        rw [h2] at h
        simp only [Bool.false_eq_true, if_false] at h
        have hi2 : (i + 1) % data.length < data.length := Nat.mod_lt _ hpos
        obtain ⟨j, hj, hrj, hhit, hmin⟩ := ih ((i + 1) % data.length) r b rem hpos hi2 h
        refine ⟨j + 1, by omega, ?_, hhit, ?_⟩
        · rw [hrj, Nat.mod_add_mod]
          congr 1
          omega
        · intro j2 hj2
          match j2, hj2 with
          | 0, _ =>
            rw [Nat.add_zero, Nat.mod_eq_of_lt hi]
            unfold Tbl.probeHit
            rw [h1, h2]
            rfl
          | k + 1, hk =>
            have := hmin k (by omega)
            rw [Nat.mod_add_mod] at this
            have harith : (i + 1 + k) = (i + (k + 1)) := by omega
            rw [harith] at this
            exact this

theorem lookUpGo_none (data : List Tbl.Entry) (key : ℕ) :
    ∀ (n i rem : ℕ), 0 < data.length → i < data.length →
      Tbl.lookUpGo data key i n = (none, rem) →
      ∀ j < n,
        Tbl.probeHit key (data.getD ((i + j) % data.length) Tbl.Entry.init) = false := by
  intro n
  induction n with
  | zero =>
    intro i rem hpos hi h j hj
    omega
  | succ m ih =>
    intro i rem hpos hi h j hj
    rw [Tbl.lookUpGo] at h
    by_cases h1 : Tbl.keysAreEqual (data.getD i Tbl.Entry.init).m_Key key = true
    · rw [if_pos h1] at h
      exact absurd (congrArg Prod.fst h) (by simp)
    · simp only [Bool.not_eq_true] at h1
      rw [h1] at h
      simp only [Bool.false_eq_true, if_false] at h
      by_cases h2 : Tbl.keyIsNone (data.getD i Tbl.Entry.init).m_Key = true
      · rw [if_pos h2] at h
        exact absurd (congrArg Prod.fst h) (by simp)
      · simp only [Bool.not_eq_true] at h2
        rw [h2] at h
        simp only [Bool.false_eq_true, if_false] at h
        have hi2 : (i + 1) % data.length < data.length := Nat.mod_lt _ hpos
        match j, hj with
        | 0, _ =>
          rw [Nat.add_zero, Nat.mod_eq_of_lt hi]
          unfold Tbl.probeHit
          rw [h1, h2]
          rfl
        | k + 1, hk =>
          have := ih ((i + 1) % data.length) rem hpos hi2 h k (by omega)
          rw [Nat.mod_add_mod] at this
          have harith : (i + 1 + k) = (i + (k + 1)) := by omega
          rw [harith] at this
          exact this

theorem lookUp_fst (t : Tbl.TableState) (cf : Bool) (key hash keysCnt : ℕ) :
    (Tbl.lookUp t cf key hash keysCnt).1 =
      (Tbl.lookUpGo t.m_Data key (hash &&& (t.m_Size - 1)) t.m_Size).1 := by
  unfold Tbl.lookUp
  split <;> rfl

theorem lookUp_none_full (t : Tbl.TableState) (key hash keysCnt : ℕ)
    (h : (Tbl.lookUpGo t.m_Data key (hash &&& (t.m_Size - 1)) t.m_Size).1 = none) :
    (Tbl.lookUp t true key hash keysCnt).2.m_IsFullFlag = true := by
  rcases hx : Tbl.lookUpGo t.m_Data key (hash &&& (t.m_Size - 1)) t.m_Size with ⟨r1, rem⟩
  rw [hx] at h
  simp only at h
  subst h
  unfold Tbl.lookUp
  rw [hx]
  simp only [Option.isNone_none, Bool.true_and]
  by_cases hf1 : (!t.m_IsFullFlag && decide (rem < t.m_MinProbeCnt)) = true
  · rw [if_pos hf1]
    by_cases hf2 : (t.m_IsFullFlag || decide (t.m_UpperKeyCountBound ≤ keysCnt)) = true
    · simp [hf2]
    · simp only [Bool.not_eq_true] at hf2
      simp [hf2]
  · rw [if_neg hf1]
    by_cases hf3 : t.m_IsFullFlag = true
    · simp [hf3]
    · simp only [Bool.not_eq_true] at hf3
      simp [hf3]

/-- C4: LookUp on a table of capacity N probes linearly from
hash &&& (N - 1), examining up to N entries, and returns the very first
slot in probe order whose key equals the requested key or is NONE; when no
such slot exists among the N probed entries, the table is marked full and
FetchEntry instructs the caller FULL_TABLE. -/
theorem C4_lookup_probes (t : Tbl.TableState) (key hash keysCnt : ℕ)
    (hlen : t.m_Data.length = t.m_Size) (hpos : 0 < t.m_Size)
    (hkey : Tbl.keyIsNone key = false) :
    (∀ (i : ℕ) (b : Bool), (Tbl.lookUp t true key hash keysCnt).1 = some (i, b) →
      ∃ j < t.m_Size, i = ((hash &&& (t.m_Size - 1)) + j) % t.m_Size ∧
        Tbl.probeHit key (t.m_Data.getD i Tbl.Entry.init) = true ∧
        ∀ j2 < j, Tbl.probeHit key
          (t.m_Data.getD (((hash &&& (t.m_Size - 1)) + j2) % t.m_Size) Tbl.Entry.init)
            = false) ∧
    ((Tbl.lookUp t true key hash keysCnt).1 = none →
      (∀ j < t.m_Size, Tbl.probeHit key
        (t.m_Data.getD (((hash &&& (t.m_Size - 1)) + j) % t.m_Size) Tbl.Entry.init)
          = false) ∧
      (Tbl.lookUp t true key hash keysCnt).2.m_IsFullFlag = true ∧
      ∀ (b : Bool) (cond : Tbl.PutCondition),
        (Tbl.fetchEntry (Tbl.lookUp t true key hash keysCnt).2 key none b cond).1 =
          Tbl.EResult.FULL_TABLE) := by
  have hplen : 0 < t.m_Data.length := by omega
  have hstart : hash &&& (t.m_Size - 1) < t.m_Data.length := by
    have := Nat.and_le_right (n := hash) (m := t.m_Size - 1)
    omega
  constructor
  · intro i b h
    rw [lookUp_fst] at h
    rcases hx : Tbl.lookUpGo t.m_Data key (hash &&& (t.m_Size - 1)) t.m_Size with ⟨r1, rem⟩
    rw [hx] at h
    simp only at h
    subst h
    obtain ⟨j, hj, hrj, hhit, hmin⟩ :=
      lookUpGo_some t.m_Data key t.m_Size (hash &&& (t.m_Size - 1)) i b rem hplen hstart
        (by rw [hx])
    rw [hlen] at hrj
    refine ⟨j, hj, hrj, hhit, ?_⟩
    intro j2 hj2
    have hm := hmin j2 hj2
    rw [hlen] at hm
    exact hm
  · intro h
    have h2 := h
    rw [lookUp_fst] at h2
    refine ⟨?_, lookUp_none_full t key hash keysCnt h2, ?_⟩
    · intro j hj
      rcases hx : Tbl.lookUpGo t.m_Data key (hash &&& (t.m_Size - 1)) t.m_Size with ⟨r1, rem⟩
      rw [hx] at h2
      simp only at h2
      subst h2
      have hm := lookUpGo_none t.m_Data key t.m_Size (hash &&& (t.m_Size - 1)) rem hplen
        hstart (by rw [hx]) j hj
      rw [hlen] at hm
      exact hm
    · intro b cond
      rfl

/-- The concrete table used by the C4 witness. -/
def c4t : Tbl.TableState :=
  ⟨4, 4, false, 3, [Tbl.Entry.init, ⟨5, 9⟩, ⟨7, SizeT.BabyV⟩, Tbl.Entry.init]⟩

/-- C4 witness: the probing theorem at the concrete table c4t, key 5,
hash 1: the probe starts at slot 1 and the very first slot probed is the
hit. -/
theorem C4_witness :
    (c4t.m_Data.length = c4t.m_Size ∧ 0 < c4t.m_Size ∧ Tbl.keyIsNone 5 = false ∧
      (Tbl.lookUp c4t true 5 1 0).1 = some (1, true)) ∧
    (∃ j < c4t.m_Size, 1 = ((1 &&& (c4t.m_Size - 1)) + j) % c4t.m_Size ∧
      Tbl.probeHit 5 (c4t.m_Data.getD 1 Tbl.Entry.init) = true ∧
      ∀ j2 < j, Tbl.probeHit 5
        (c4t.m_Data.getD (((1 &&& (c4t.m_Size - 1)) + j2) % c4t.m_Size) Tbl.Entry.init)
          = false) :=
  ⟨⟨by decide, by decide, by decide, by decide⟩,
    (C4_lookup_probes c4t 5 1 0 (by decide) (by decide) (by decide)).1 1 true (by decide)⟩

/-! ## Claim C8: the initial capacity chosen by the constructor -/

theorem orShift_window (v y w : ℕ)
    (h : ∀ i, y.testBit i = true ↔ ∃ d < w, v.testBit (i + d) = true) :
    ∀ i, (Old.orShift w y).testBit i = true ↔ ∃ d < 2 * w, v.testBit (i + d) = true := by
  intro i
  rw [Old.orShift, Nat.testBit_or, Nat.testBit_shiftRight, Bool.or_eq_true]
  constructor
  · rintro (hy | hy)
    · obtain ⟨d, hd, hb⟩ := (h i).mp hy
      exact ⟨d, by omega, hb⟩
    · obtain ⟨d, hd, hb⟩ := (h (w + i)).mp hy
      refine ⟨w + d, by omega, ?_⟩
      have harith : i + (w + d) = w + i + d := by omega
      rw [harith]
      exact hb
  · rintro ⟨d, hd, hb⟩
    rcases lt_or_le d w with hlt | hge
    · exact Or.inl ((h i).mpr ⟨d, hlt, hb⟩)
    · refine Or.inr ((h (w + i)).mpr ⟨d - w, by omega, ?_⟩)
      have harith : w + i + (d - w) = i + d := by omega
      rw [harith]
      exact hb

theorem cascade_testBit (m : ℕ) :
    ∀ i, (Old.orShift 32 (Old.orShift 16 (Old.orShift 8 (Old.orShift 4
        (Old.orShift 2 (Old.orShift 1 m)))))).testBit i = true ↔
      ∃ d < 64, m.testBit (i + d) = true := by
  have h0 : ∀ i, m.testBit i = true ↔ ∃ d < 1, m.testBit (i + d) = true := by
    intro i
    constructor
    · intro h
      exact ⟨0, by omega, by simpa using h⟩
    · rintro ⟨d, hd, hb⟩
      have hz : d = 0 := by omega
      subst hz
      simpa using hb
  have h1 := orShift_window m m 1 h0
  have h2 := orShift_window m _ 2 h1
  have h3 := orShift_window m _ 4 h2
  have h4 := orShift_window m _ 8 h3
  have h5 := orShift_window m _ 16 h4
  have h6 := orShift_window m _ 32 h5
  intro i
  rw [h6 i]

theorem testBit_size_pred {m : ℕ} (hm : 0 < m) : m.testBit (Nat.size m - 1) = true := by
  have hs : 0 < Nat.size m := Nat.size_pos.mpr hm
  have h1 : 2 ^ (Nat.size m - 1) ≤ m := by
    by_contra hcon
    push_neg at hcon
    have := Nat.size_le.mpr hcon
    omega
  have h2 : m < 2 ^ Nat.size m := Nat.lt_size_self m
  have hsplit : 2 ^ Nat.size m = 2 ^ (Nat.size m - 1) * 2 := by
    rw [← pow_succ]
    congr 1
    omega
  have hpos : 0 < 2 ^ (Nat.size m - 1) := Nat.pos_pow_of_pos _ (by norm_num)
  have hge : 1 ≤ m / 2 ^ (Nat.size m - 1) := (Nat.one_le_div_iff hpos).mpr h1
  have hlt2 : m / 2 ^ (Nat.size m - 1) < 2 := (Nat.div_lt_iff_lt_mul hpos).mpr (by omega)
  have hdiv : m / 2 ^ (Nat.size m - 1) = 1 := by omega
  rw [Nat.testBit_to_div_mod, hdiv]
  rfl

theorem testBit_lt_size {m i : ℕ} (h : m.testBit i = true) : i < Nat.size m := by
  by_contra hcon
  push_neg at hcon
  have hm2 : m < 2 ^ i :=
    lt_of_lt_of_le (Nat.lt_size_self m) (Nat.pow_le_pow_right (by norm_num) hcon)
  rw [Nat.testBit_lt_two_pow hm2] at h
  exact absurd h (by simp)

theorem cascade_eq (m : ℕ) (hm : m < 2 ^ 64) :
    Old.orShift 32 (Old.orShift 16 (Old.orShift 8 (Old.orShift 4 (Old.orShift 2
      (Old.orShift 1 m))))) = 2 ^ Nat.size m - 1 := by
  refine Nat.eq_of_testBit_eq fun i => ?_
  rw [Nat.testBit_two_pow_sub_one]
  have hc := cascade_testBit m i
  by_cases hi : i < Nat.size m
  · have hmpos : 0 < m := by
      rcases Nat.eq_zero_or_pos m with hz | hp
      · subst hz
        simp [Nat.size_zero] at hi
      · exact hp
    have hd : Nat.size m - 1 - i < 64 := by
      have := Nat.size_le.mpr hm
      omega
    have hb : m.testBit (i + (Nat.size m - 1 - i)) = true := by
      have harith : i + (Nat.size m - 1 - i) = Nat.size m - 1 := by omega
      rw [harith]
      exact testBit_size_pred hmpos
    rw [hc.mpr ⟨Nat.size m - 1 - i, hd, hb⟩]
    simp [hi]
  · have hfalse : (Old.orShift 32 (Old.orShift 16 (Old.orShift 8 (Old.orShift 4
        (Old.orShift 2 (Old.orShift 1 m)))))).testBit i = false := by
      by_contra hcon
      rw [Bool.not_eq_false] at hcon
      obtain ⟨d, hd, hb⟩ := hc.mp hcon
      have := testBit_lt_size hb
      omega
    rw [hfalse]
    simp [hi]

theorem NextTwoPower_eq (s : ℕ) (h2 : s + 2 ≤ 2 ^ 63) :
    Old.NextTwoPower s = 2 ^ Nat.size (s + 1) := by
  have hlt64 : s + 1 < 2 ^ 64 := by
    have : (2 : ℕ) ^ 63 < 2 ^ 64 := by norm_num
    omega
  have hm1 : (s + 1) % 2 ^ 64 = s + 1 := Nat.mod_eq_of_lt hlt64
  simp only [Old.NextTwoPower]
  rw [hm1, cascade_eq (s + 1) hlt64]
  have hsize : Nat.size (s + 1) ≤ 63 := by
    refine Nat.size_le.mpr ?_
    omega
  have hppos : 0 < 2 ^ Nat.size (s + 1) := Nat.pos_pow_of_pos _ (by norm_num)
  have hsub : 2 ^ Nat.size (s + 1) - 1 + 1 = 2 ^ Nat.size (s + 1) := by omega
  rw [hsub]
  refine Nat.mod_eq_of_lt ?_
  calc 2 ^ Nat.size (s + 1) ≤ 2 ^ 63 := Nat.pow_le_pow_right (by norm_num) hsize
    _ < 2 ^ 64 := by norm_num

/-- C8 counterexample.  With initialSize 1 and density 1/2 the claim
demands the least power of two at least ⌈1 / (1/2)⌉ = 2, i.e. capacity 2,
but the constructor builds the head table with capacity
NextTwoPower 1 = 4: the density never enters the computation. -/
theorem C8_counterexample :
    Old.initialCapacity 1 = 4 ∧ ⌈(1 : ℚ) / (1 / 2)⌉ = 2 ∧ (2 : ℕ) = 2 ^ 1 ∧ (2 : ℕ) < 4 := by
  refine ⟨by decide, ?_, by norm_num, by norm_num⟩
  norm_num

/-- C8 (amended): for every initialSize with 1 ≤ initialSize and
initialSize + 2 ≤ 2^63, the facade constructor creates an initial table
whose capacity is the least power of two strictly greater than
initialSize + 1; the density plays no part. -/
theorem C8_amended (s : ℕ) (h1 : 1 ≤ s) (h2 : s + 2 ≤ 2 ^ 63) :
    (∃ k, Old.initialCapacity s = 2 ^ k) ∧
    s + 1 < Old.initialCapacity s ∧
    (∀ k, s + 1 < 2 ^ k → Old.initialCapacity s ≤ 2 ^ k) := by
  have he : Old.initialCapacity s = 2 ^ Nat.size (s + 1) := NextTwoPower_eq s h2
  refine ⟨⟨Nat.size (s + 1), he⟩, ?_, ?_⟩
  · rw [he]
    exact Nat.lt_size_self (s + 1)
  · intro k hk
    rw [he]
    exact Nat.pow_le_pow_right (by norm_num) (Nat.size_le.mpr hk)

/-- C8 witness: the amended capacity law at initialSize 5 — capacity 8, a
power of two, above 6, and no larger than the power of two 8. -/
theorem C8_witness :
    ((1 : ℕ) ≤ 5 ∧ 5 + 2 ≤ 2 ^ 63) ∧
    (∃ k, Old.initialCapacity 5 = 2 ^ k) ∧ 5 + 1 < Old.initialCapacity 5 ∧
    Old.initialCapacity 5 ≤ 2 ^ 3 :=
  have h := C8_amended 5 (by norm_num) (by norm_num)
  ⟨⟨by norm_num, by norm_num⟩, h.1, h.2.1, h.2.2 3 (by norm_num)⟩

/-! ## Claim C10: the IF_MATCHES(NO_VALUE) rewrite -/

/-- C10: a facade Put whose condition is IF_MATCHES with the expected old
value equal to the NO_VALUE sentinel is rewritten to IF_ABSENT before
execution (lfht.h:890-891); consequently PutIfMatch(key, NO_VALUE, value)
is the same operation as PutIfAbsent(key, value) — the same answer and the
same resulting facade state, over every state, key, value, fuel bound,
hash, equality and probe-bound collaborators. -/
theorem C10_putIfMatch_noValue (equal : ℕ → ℕ → Bool) (hash maxProbeFn : ℕ → ℕ)
    (st : Old.HT) (key value fuel : ℕ) :
    Old.putIfMatch equal hash maxProbeFn st key Old.NO_VALUE value fuel =
      Old.putIfAbsent equal hash maxProbeFn st key value fuel := by
  unfold Old.putIfMatch Old.putIfAbsent Old.facadePut
  rfl

/-! ## Claim C1: what the facade delete actually does -/

/-- The word-equality collaborator used by the concrete runs. -/
def eqW : ℕ → ℕ → Bool := fun a b => a == b

/-- The identity hash used by the concrete runs. -/
def idH : ℕ → ℕ := fun a => a

/-- The floating-point probe bound (size_t)(1.5 * log n) evaluated by the
source for the capacities arising in the concrete runs: for capacity 4 it
is 2. -/
def mpf2 : ℕ → ℕ := fun _ => 2

/-- The facade of the concrete C1 run after put(5, 7). -/
def c1st1 : Old.HT :=
  ((Old.facadePut eqW idH mpf2 (Old.mkHT 1 2) 5 7 ⟨Old.When.ALWAYS, Old.NO_VALUE⟩ 20).getD
    (false, Old.mkHT 1 2)).2

/-- C1 counterexample.  After put(5, 7), delete(5) returns true — but the
slot's key is overwritten with the TOMBSTONE sentinel (not left unchanged)
and the slot's value still holds 7 (it does not become the NONE value
sentinel): the facade delete of lfht.h is not Put(key, NONE, IF_EXISTS). -/
theorem C1_counterexample :
    (Old.facadePut eqW idH mpf2 (Old.mkHT 1 2) 5 7 ⟨Old.When.ALWAYS, Old.NO_VALUE⟩ 20).map
        Prod.fst = some true ∧
    (Old.facadeDelete eqW idH mpf2 c1st1 5 20).map Prod.fst = some true ∧
    (Old.facadeDelete eqW idH mpf2 c1st1 5 20).map (fun r => r.2.entryAt 0 1) =
      some ⟨Old.TOMBSTONE, 7, Old.EState.NORMAL⟩ ∧
    Old.TOMBSTONE ≠ 5 ∧ (7 : ℕ) ≠ Old.NO_VALUE := by
  refine ⟨by decide, by decide, by decide, by decide, by decide⟩

theorem old_lookUpGo_lt (data : List Old.LEntry) (equal : ℕ → ℕ → Bool) (key : ℕ) :
    ∀ (n i r : ℕ) (b : Bool), 0 < data.length → i < data.length →
      Old.lookUpGo data equal key i n = some (r, b) → r < data.length := by
  intro n
  induction n with
  | zero =>
    intro i r b hpos hi h
    simp [Old.lookUpGo] at h
  | succ m ih =>
    intro i r b hpos hi h
    rw [Old.lookUpGo] at h
    by_cases h1 : ((data.getD i Old.LEntry.init).m_key != Old.TOMBSTONE &&
        (data.getD i Old.LEntry.init).m_key == Old.NO_KEY) = true
    · rw [if_pos h1] at h
      have h2 := congrArg (fun o => o.map Prod.fst) h
      simp at h2
      omega
    · rw [if_neg h1] at h
      by_cases h2 : ((data.getD i Old.LEntry.init).m_key != Old.TOMBSTONE &&
          equal (data.getD i Old.LEntry.init).m_key key) = true
      · rw [if_pos h2] at h
        have h3 := congrArg (fun o => o.map Prod.fst) h
        simp at h3
        omega
      · rw [if_neg h2] at h
        exact ih ((i + 1) % data.length) r b hpos (Nat.mod_lt _ hpos) h

theorem entryAt_tryToDelete (st : Old.HT) (ti ei : ℕ) :
    st.tryToDelete.entryAt ti ei = st.entryAt ti ei := by
  unfold Old.HT.tryToDelete
  rcases hr : st.retired with _ | ⟨a, as⟩
  · rfl
  · dsimp only
    split <;> rfl

theorem entryAt_setEKey_self (st : Old.HT) (t : Old.LTable) (h : st.chain = [t])
    (i k : ℕ) (hi : i < t.m_data.length) :
    (st.setEKey 0 i k).entryAt 0 i =
      { t.m_data.getD i Old.LEntry.init with m_key := k } := by
  unfold Old.HT.setEKey Old.HT.setEntry Old.HT.entryAt Old.HT.setTable Old.HT.tableAt
  simp [h, List.getD_eq_getElem?_getD, List.getElem?_set_self, hi]

/-- C1 (amended): on a single-table chain all of whose entries are in the
NORMAL state, the facade delete(key) returns true exactly when the probe
finds a slot whose key equals the requested key — regardless of the
slot's value — and on success it overwrites that slot's key with the
TOMBSTONE sentinel, leaving the slot's value and state unchanged; it never
writes the NONE value sentinel, so it is not Put(key, NONE, IF_EXISTS). -/
theorem C1_amended (equal : ℕ → ℕ → Bool) (hash maxProbeFn : ℕ → ℕ)
    (st : Old.HT) (t : Old.LTable) (key fuel : ℕ)
    (hchain : st.chain = [t])
    (hlen : t.m_data.length = t.m_size) (hpos : 0 < t.m_size)
    (hnormal : ∀ e ∈ t.m_data, e.m_state = Old.EState.NORMAL) :
    ((Old.facadeDelete equal hash maxProbeFn st key (fuel + 2)).map Prod.fst = some true ↔
      ∃ i, (t.lookUp equal key (hash key)).1 = some (i, true)) ∧
    (∀ i, (t.lookUp equal key (hash key)).1 = some (i, true) →
      (Old.facadeDelete equal hash maxProbeFn st key (fuel + 2)).map
          (fun r => r.2.entryAt 0 i) =
        some { t.m_data.getD i Old.LEntry.init with m_key := Old.TOMBSTONE }) := by
  have hdlen : 0 < t.m_data.length := by omega
  have hstart : (hash key) &&& (t.m_size - 1) < t.m_data.length := by
    have := Nat.and_le_right (n := hash key) (m := t.m_size - 1)
    omega
  have hc2 : (st.startGuarding).chain = [t] := by
    simpa [Old.HT.startGuarding] using hchain
  have h_t0 : st.startGuarding.tableAt 0 = t := by
    simp [Old.HT.tableAt, hc2]
  have hsetTable : st.startGuarding.setTable 0 t = st.startGuarding := by
    unfold Old.HT.setTable
    rw [hc2]
    show { st.startGuarding with chain := [t] } = st.startGuarding
    rw [← hc2]
  have h22 : fuel + 2 = (fuel + 1) + 1 := rfl
  rcases hgo : Old.lookUpGo t.m_data equal key ((hash key) &&& (t.m_size - 1))
      (max 1 t.m_maxProbeCnt) with _ | ⟨i0, b0⟩
  · -- the probe found nothing: the table is marked full, delete answers false
    have hlk : t.lookUp equal key (hash key) = (none, { t with m_isFullFlag := true }) := by
      unfold Old.LTable.lookUp
      rw [hgo]
    have htd : Old.tableDelete equal hash maxProbeFn st.startGuarding 0 key (fuel + 1) =
        some (Old.EResult.FULL_TABLE,
          st.startGuarding.setTable 0 { t with m_isFullFlag := true }) := by
      unfold Old.tableDelete
      rw [h_t0, hlk]
    have hfdg : Old.facadeDeleteGo equal hash maxProbeFn key (fuel + 2) st.startGuarding 0 =
        some (Old.EResult.FULL_TABLE,
          st.startGuarding.setTable 0 { t with m_isFullFlag := true }) := by
      rw [h22, Old.facadeDeleteGo, htd]
      simp [Old.HT.setTable, hc2]
    have hfd : (Old.facadeDelete equal hash maxProbeFn st key (fuel + 2)).map Prod.fst =
        some false := by
      unfold Old.facadeDelete
      dsimp only
      rw [hfdg]
      simp
    constructor
    · rw [hfd]
      constructor
      · intro h
        simp at h
      · rintro ⟨i, hi⟩
        rw [hlk] at hi
        simp at hi
    · intro i hi
      rw [hlk] at hi
      simp at hi
  · -- the probe found a slot
    have hlk : t.lookUp equal key (hash key) = (some (i0, b0), t) := by
      unfold Old.LTable.lookUp
      rw [hgo]
    have hi0lt : i0 < t.m_data.length :=
      old_lookUpGo_lt t.m_data equal key (max 1 t.m_maxProbeCnt)
        ((hash key) &&& (t.m_size - 1)) i0 b0 hdlen hstart hgo
    have hgetD : t.m_data.getD i0 Old.LEntry.init = t.m_data[i0] := by
      rw [List.getD_eq_getElem?_getD, List.getElem?_eq_getElem hi0lt]
      rfl
    have hstate : (t.m_data.getD i0 Old.LEntry.init).m_state = Old.EState.NORMAL := by
      rw [hgetD]
      exact hnormal _ (List.getElem_mem hi0lt)
    have hent : st.startGuarding.entryAt 0 i0 = t.m_data.getD i0 Old.LEntry.init := by
      simp [Old.HT.entryAt, Old.HT.tableAt, hc2]
    have hsome : t.m_data[i0]? = some t.m_data[i0] := List.getElem?_eq_getElem hi0lt
    have hstate3 : t.m_data[i0].m_state = Old.EState.NORMAL := by
      rw [← hgetD]
      exact hstate
    have htd : Old.tableDelete equal hash maxProbeFn st.startGuarding 0 key (fuel + 1) =
        Old.deleteGo equal hash maxProbeFn 0 i0 b0 (fuel + 1) st.startGuarding := by
      unfold Old.tableDelete
      rw [h_t0, hlk]
      dsimp only
      rw [hsetTable]
    cases b0 with
    | false =>
      -- an empty slot stops the probe: FAILED (or FULL_TABLE), never true
      have hdg : Old.deleteGo equal hash maxProbeFn 0 i0 false (fuel + 1) st.startGuarding =
          if t.m_isFullFlag then some (Old.EResult.FULL_TABLE, st.startGuarding)
          else some (Old.EResult.FAILED, st.startGuarding) := by
        rw [Old.deleteGo]
        by_cases hful : t.m_isFullFlag = true <;>
          simp [hent, hgetD, hsome, hstate3, h_t0, hful]
      have hfd : (Old.facadeDelete equal hash maxProbeFn st key (fuel + 2)).map Prod.fst =
          some false := by
        unfold Old.facadeDelete
        dsimp only
        rw [h22, Old.facadeDeleteGo, htd, hdg]
        by_cases hful : t.m_isFullFlag
        · simp [hful, hc2]
        · simp [hful]
      constructor
      · rw [hfd]
        constructor
        · intro h
          simp at h
        · rintro ⟨i, hi⟩
          rw [hlk] at hi
          simp at hi
      · intro i hi
        rw [hlk] at hi
        simp at hi
    | true =>
      -- the key was found: write TOMBSTONE over it and succeed
      have hentset : (st.startGuarding.setEKey 0 i0 Old.TOMBSTONE).entryAt 0 i0 =
          { t.m_data.getD i0 Old.LEntry.init with m_key := Old.TOMBSTONE } :=
        entryAt_setEKey_self st.startGuarding t hc2 i0 Old.TOMBSTONE hi0lt
      have hdg : Old.deleteGo equal hash maxProbeFn 0 i0 true (fuel + 1) st.startGuarding =
          some (Old.EResult.SUCCEEDED, st.startGuarding.setEKey 0 i0 Old.TOMBSTONE) := by
        rw [Old.deleteGo]
        simp [hent, hgetD, hsome, hstate3, hentset]
      have hfdg : Old.facadeDeleteGo equal hash maxProbeFn key (fuel + 2) st.startGuarding 0 =
          some (Old.EResult.SUCCEEDED, st.startGuarding.setEKey 0 i0 Old.TOMBSTONE) := by
        rw [h22, Old.facadeDeleteGo, htd, hdg]
        simp
      have hfd : Old.facadeDelete equal hash maxProbeFn st key (fuel + 2) =
          some (true,
            { (st.startGuarding.setEKey 0 i0 Old.TOMBSTONE).stopGuarding.tryToDelete with
                m_size :=
                  (st.startGuarding.setEKey 0 i0 Old.TOMBSTONE).stopGuarding.tryToDelete.m_size
                    - 1 }) := by
        unfold Old.facadeDelete
        dsimp only
        rw [hfdg]
        simp
      constructor
      · rw [hfd]
        constructor
        · intro _
          exact ⟨i0, by rw [hlk]⟩
        · intro _
          simp
      · intro i hi
        rw [hlk] at hi
        simp only [Option.some.injEq, Prod.mk.injEq] at hi
        obtain ⟨hii, _⟩ := hi
        subst hii
        rw [hfd]
        show some
            ((st.startGuarding.setEKey 0 i0
              Old.TOMBSTONE).stopGuarding.tryToDelete.entryAt 0 i0) = _
        rw [entryAt_tryToDelete]
        show some ((st.startGuarding.setEKey 0 i0 Old.TOMBSTONE).entryAt 0 i0) = _
        rw [hentset]

/-- The single table of the C1 witness run: capacity 4, key 5 with value 7
stored in slot 1, every slot in the NORMAL state. -/
def c1wt : Old.LTable :=
  { Old.mkLTable 4 2 with
      m_data := (Old.mkLTable 4 2).m_data.set 1 ⟨5, 7, Old.EState.NORMAL⟩ }

/-- The facade of the C1 witness run: a fresh facade whose chain holds c1wt. -/
def c1wst : Old.HT := { Old.mkHT 1 2 with chain := [c1wt] }

/-- C1 witness: the amended claim applied to the concrete single-table facade
c1wst with key 5. -/
theorem C1_witness :
    ((Old.facadeDelete eqW idH mpf2 c1wst 5 (0 + 2)).map Prod.fst = some true ↔
      ∃ i, (c1wt.lookUp eqW 5 (idH 5)).1 = some (i, true)) ∧
    (∀ i, (c1wt.lookUp eqW 5 (idH 5)).1 = some (i, true) →
      (Old.facadeDelete eqW idH mpf2 c1wst 5 (0 + 2)).map
          (fun r => r.2.entryAt 0 i) =
        some { c1wt.m_data.getD i Old.LEntry.init with m_key := Old.TOMBSTONE }) :=
  C1_amended eqW idH mpf2 c1wst c1wt 5 0 (by rfl) (by decide) (by decide) (by decide)

/-- The m_next pointers of the C5 run: live successor chain 1 - 2 - 3 - 4. -/
def c5next : ℕ → Option ℕ := fun t =>
  if t = 1 then some 2 else if t = 2 then some 3 else if t = 3 then some 4
  else none

/-- The m_nextToDelete pointers of the C5 run: the snapshot list is 2, 1. -/
def c5ntd : ℕ → Option ℕ := fun t => if t = 2 then some 1 else none

/-- The outcome of the C5 run of TryToDelete: snapshot head 2, old facade
head 3, head 4 at the re-check (the ABA branch), no guards, generation bound
satisfied, and m_toDelete holding 3 when the re-link loop reads it. -/
def c5run : List ℕ × Option ℕ × (ℕ → Option ℕ) :=
  Old.tryToDeleteAba c5next c5ntd (some 2) 3 4 (2 ^ 64 - 1) 1 (some 3) 10

/-- C6 bug run: a conditional put whose condition fails still bumps the size
counter.  PutIfExists(5, 7) on a fresh facade returns false (5 is absent, the
IF_EXISTS condition fails) and installs no live entry, yet m_size becomes 1:
lfht.h:904-906 increments m_size whenever the per-table result is merely not
FULL_TABLE, not only on SUCCEEDED. -/
theorem C6_size_bug :
    (Old.putIfExists eqW idH mpf2 (Old.mkHT 1 2) 5 7 20).map Prod.fst =
      some false ∧
    (Old.putIfExists eqW idH mpf2 (Old.mkHT 1 2) 5 7 20).map
      (fun r => r.2.m_size) = some 1 ∧
    (Old.putIfExists eqW idH mpf2 (Old.mkHT 1 2) 5 7 20).map
      (fun r => Old.liveCount r.2) = some 0 := by
  refine ⟨by decide, by decide, by decide⟩

/-- C5 bug run: in the ABA branch the tail search of lfht.h:1057 walks m_next
(the live successor chain) instead of m_nextToDelete (the retired-list
links).  With snapshot list [2, 1] and live chain 2 - 3 - 4, the loop names
the live table 4 as the tail, mutates its m_nextToDelete to the concurrently
pushed head 3, and re-installs head 2 — so the re-linked retired list is
[2, 1]: the pushed table 3 is no longer reachable from m_toDelete (the set
of retired tables changed) and the live table 4, which is in no snapshot,
had a field of its memory written. -/
theorem C5_relink_bug :
    c5run.1 = [] ∧
    c5run.2.1 = some 2 ∧
    c5run.2.2 4 = some 3 ∧ c5ntd 4 = none ∧
    Old.chainToDelete c5run.2.2 c5run.2.1 10 = [2, 1] ∧
    3 ∉ Old.chainToDelete c5run.2.2 c5run.2.1 10 ∧
    Old.chainToDelete c5ntd (some 2) 10 = [2, 1] ∧
    4 ∉ Old.chainToDelete c5ntd (some 2) 10 := by
  refine ⟨by decide, by decide, by decide, by decide, by decide, by decide,
    by decide, by decide⟩

end LFHT
